import Mathlib

/-!
# Prefix frequency index (`Vocabulary`) of `src/main.cpp`

A shallow embedding of the class `Vocabulary` and a verification of its
specification.

Modelling conventions.

* `std::string` is a `List Char`.
* `std::deque<Node> bor_` is a `List Node`; a `Node*` is the position of the node in
  that list (a deque never moves its elements, so positions are stable), the root
  `&*bor_.begin()` is position `0` and `nullptr` is `none`.
* `Node::children` is a list of `kAlphabetSize` optional positions.
* `size_t max_n` is a natural number: the counter is only ever incremented by one per
  call of `AddWord`, so it cannot wrap before `2^64` insertions have been made.
* Reading or writing outside an array, dereferencing a position that is not in the
  deque and `top()` on an empty stack are undefined behaviour in C++; the model
  reports them as `Res.oob`.
* The outer `while (true)` loop of `PredictWord` takes a fuel argument and reports
  `Res.timeout` when the fuel is used up.
-/

/-- Outcome of running a piece of the program. -/
inductive Res (α : Type) where
  | ok : α → Res α
  | oob : Res α
  | timeout : Res α
  deriving DecidableEq

/-- Sequencing of two pieces of the program. -/
def Res.bind {α β : Type} (x : Res α) (f : α → Res β) : Res β :=
  match x with
  | .ok a => f a
  | .oob => .oob
  | .timeout => .timeout

/-- The struct `Vocabulary::Node`. -/
structure Node where
  children : List (Option Nat)
  max_n : Nat
  deriving DecidableEq

/-- The data members of the class `Vocabulary`. -/
structure Vocabulary where
  bor_ : List Node
  prev_prefix_ : List Char
  prev_node_ : Option Nat
  deriving DecidableEq

namespace Vocabulary

def kAlphabetStartSymbol : Char := 'a'

def kAlphabetEndSymbol : Char := 'z'

def kTermSymbol : Char := '#'

def kAlphabetSize : Nat := kAlphabetEndSymbol.toNat - kAlphabetStartSymbol.toNat + 2

/-- A value-initialised `Node`, as made by `bor_.emplace_back()`: every child is
`nullptr` and `max_n` is `0`. -/
def emptyNode : Node := ⟨List.replicate kAlphabetSize none, 0⟩

/-- The constructor `Vocabulary::Vocabulary()`. -/
def new : Vocabulary := ⟨[emptyNode], [], none⟩

/-- `SymbolNumber`: the difference `symbol - kAlphabetStartSymbol` is an `int` that is
converted to `size_t`, hence the reduction modulo `2^64`. -/
def SymbolNumber (symbol : Char) : Nat :=
  if symbol ≠ kTermSymbol then
    Int.toNat (((symbol.toNat : Int) - (kAlphabetStartSymbol.toNat : Int)) % (2 : Int) ^ 64)
  else kAlphabetSize - 1

/-- `SymbolFromNumber`: the letter with the given number, the terminator for every
number from `kAlphabetSize - 1` on. -/
def SymbolFromNumber (number : Nat) : Char :=
  if number < kAlphabetSize - 1 then Char.ofNat (kAlphabetStartSymbol.toNat + number)
  else kTermSymbol

/-- Lines 47-51 (and again 53-57) of `AddWord`: make the child of `current` for the
symbol number `k` if it is missing, and move to it.  Returns the new deque and the new
value of `current`. -/
def addStep (bor : List Node) (current k : Nat) : Res (List Node × Nat) :=
  match bor[current]? with
  | none => .oob
  | some n =>
    match n.children[k]? with
    | none => .oob
    | some (some c) => .ok (bor, c)
    | some none =>
      .ok (bor.set current { n with children := n.children.set k (some bor.length) }
            ++ [emptyNode], bor.length)

/-- The `for (char symbol : word)` loop of `AddWord`; `stack` is `parent_stack` with
its top first. -/
def descend (bor : List Node) (current : Nat) (stack : List Nat) :
    List Char → Res (List Node × Nat × List Nat)
  | [] => .ok (bor, current, stack)
  | symbol :: rest =>
    match addStep bor current (SymbolNumber symbol) with
    | .ok (bor1, c) => descend bor1 c (current :: stack) rest
    | .oob => .oob
    | .timeout => .timeout

/-- The `while (current != &*bor_.begin())` loop of `AddWord`. -/
def propagate (bor : List Node) (current : Nat) : List Nat → Res (List Node)
  | [] => if current = 0 then .ok bor else .oob
  | parent :: rest =>
    if current = 0 then .ok bor
    else
      match bor[parent]?, bor[current]? with
      | some p, some c =>
        propagate (bor.set parent { p with max_n := max p.max_n c.max_n }) parent rest
      | _, _ => .oob

/-- `AddWord`: the way down along the word and the terminator, the increment of the
counter of the terminator child, and the way back up to the root. -/
def AddWord (v : Vocabulary) (word : List Char) : Res Vocabulary :=
  match descend v.bor_ 0 [] word with
  | .ok (bor1, current, stack) =>
    match addStep bor1 current (SymbolNumber kTermSymbol) with
    | .ok (bor2, t) =>
      match bor2[t]? with
      | none => .oob
      | some n =>
        match propagate (bor2.set t { n with max_n := n.max_n + 1 }) t (current :: stack) with
        | .ok bor3 => .ok { v with bor_ := bor3 }
        | .oob => .oob
        | .timeout => .timeout
    | .oob => .oob
    | .timeout => .timeout
  | .oob => .oob
  | .timeout => .timeout

/-- The loop of `FindNodeInBor`, started at the position `current`. -/
def findLoop (bor : List Node) (current : Nat) : List Char → Res (Option Nat)
  | [] => .ok (some current)
  | symbol :: rest =>
    match bor[current]? with
    | none => .oob
    | some n =>
      match n.children[SymbolNumber symbol]? with
      | none => .oob
      | some none => .ok none
      | some (some c) => findLoop bor c rest

/-- `FindNodeInBor`: a null `start_node` stands for the root. -/
def FindNodeInBor (v : Vocabulary) (pfx : List Char) (start_node : Option Nat) :
    Res (Option Nat) :=
  findLoop v.bor_ (match start_node with | some s => s | none => 0) pfx

/-- The inner `while` loop of `PredictWord`, lines 99-101: `i` is `next_symbol_n` and
`rem` is `kAlphabetSize - i`, the number of slots of the array not yet looked at. -/
def scan (bor : List Node) (cur : Node) : Nat → Nat → Res Nat
  | 0, _ => .oob
  | rem + 1, i =>
    match cur.children[i]? with
    | none => .oob
    | some none => scan bor cur rem (i + 1)
    | some (some c) =>
      match bor[c]? with
      | none => .oob
      | some cn => if cn.max_n ≠ cur.max_n then scan bor cur rem (i + 1) else .ok i

/-- The `while (true)` loop of `PredictWord`, lines 97-108. -/
def complete (bor : List Node) : Nat → Nat → List Char → Res (List Char)
  | 0, _, _ => .timeout
  | fuel + 1, current, result =>
    match bor[current]? with
    | none => .oob
    | some n =>
      match scan bor n kAlphabetSize 0 with
      | .ok next_symbol_n =>
        if SymbolFromNumber next_symbol_n = kTermSymbol then .ok result
        else
          match n.children[next_symbol_n]? with
          | some (some c) => complete bor fuel c (result ++ [SymbolFromNumber next_symbol_n])
          | _ => .oob
      | .oob => .oob
      | .timeout => .timeout

/-- The private overload `PredictWord(prefix, start_node)`. -/
def PredictWordAt (fuel : Nat) (v : Vocabulary) (pfx : List Char) (start_node : Option Nat) :
    Res (List Char × Vocabulary) :=
  match FindNodeInBor v pfx start_node with
  | .ok current =>
    let v1 := { v with prev_node_ := current }
    match current with
    | none => .ok (pfx, v1)
    | some c =>
      match complete v.bor_ fuel c pfx with
      | .ok result => .ok (result, v1)
      | .oob => .oob
      | .timeout => .timeout
  | .oob => .oob
  | .timeout => .timeout

/-- The public `PredictWord(prefix)`. -/
def PredictWord (fuel : Nat) (v : Vocabulary) (pfx : List Char) : Res (List Char × Vocabulary) :=
  match PredictWordAt fuel v pfx (some 0) with
  | .ok (result, v1) => .ok (result, { v1 with prev_prefix_ := pfx })
  | .oob => .oob
  | .timeout => .timeout

/-- `PredictPrevWordWithNewSymbols`: the lookup starts at the cached node and the cached
prefix is put in front of the result. -/
def PredictPrevWordWithNewSymbols (fuel : Nat) (v : Vocabulary) (pfx : List Char) :
    Res (List Char × Vocabulary) :=
  match PredictWordAt fuel v pfx v.prev_node_ with
  | .ok (r, v1) => .ok (v.prev_prefix_ ++ r, { v1 with prev_prefix_ := pfx })
  | .oob => .oob
  | .timeout => .timeout

/-- The index after the calls `AddWord(w)` for the words `w` of `ws`, in this order, on
the index `v`. -/
def addWords (v : Vocabulary) : List (List Char) → Res Vocabulary
  | [] => .ok v
  | w :: ws =>
    match AddWord v w with
    | .ok v1 => addWords v1 ws
    | .oob => .oob
    | .timeout => .timeout

/-- The index built from a fresh `Vocabulary` by the calls `AddWord(w)`, `w` in `ws`. -/
def build (ws : List (List Char)) : Res Vocabulary := addWords new ws

/-! ## Observations on the deque -/

/-- The child pointer `bor[i].children[k]`; `none` when it is null or when there is no
such slot. -/
def child (b : List Node) (i k : Nat) : Option Nat :=
  match b[i]? with
  | none => none
  | some n =>
    match n.children[k]? with
    | some (some c) => some c
    | _ => none

/-- The counter `bor[i].max_n` (`0` when there is no node `i`). -/
def mx (b : List Node) (i : Nat) : Nat :=
  match b[i]? with
  | some n => n.max_n
  | none => 0

/-- The node reached from node `i` by following the symbol numbers of a path. -/
def walk (b : List Node) (i : Nat) : List Nat → Option Nat
  | [] => some i
  | k :: ks =>
    match child b i k with
    | some c => walk b c ks
    | none => none

/-- Shape of the deque: the root exists, every node has `kAlphabetSize` child slots, a
child was created after its parent and lies in the deque, and no node is the child of
two slots. -/
structure WF (b : List Node) : Prop where
  root : 0 < b.length
  arity : ∀ n ∈ b, n.children.length = kAlphabetSize
  lt : ∀ i k c, child b i k = some c → i < c ∧ c < b.length
  inj : ∀ i k i' k' c, child b i k = some c → child b i' k' = some c → i = i' ∧ k = k'

/-- The symbol numbers of the characters of a word. -/
def code (w : List Char) : List Nat := w.map SymbolNumber

/-- The nodes passed on the way from node `cur` along a path, the node reached at the
end of the path left out. -/
def trail (b : List Node) (cur : Nat) : List Nat → List Nat
  | [] => []
  | k :: ks =>
    cur :: (match child b cur k with
      | some c => trail b c ks
      | none => [])

/-- The number of nodes missing on the way from node `cur` along a path. -/
def missing (b : List Node) (cur : Nat) : List Nat → Nat
  | [] => 0
  | k :: ks =>
    match child b cur k with
    | some c => missing b c ks
    | none => ks.length + 1

/-- The stack of parents is consumed exactly when the root is reached: the loop
`while (current != root)` pops once per element. -/
def StackOK : Nat → List Nat → Prop
  | cur, [] => cur = 0
  | cur, s :: rest => cur ≠ 0 ∧ StackOK s rest

/-- The path of a word in the trie: its symbol numbers followed by the number of the
terminator. -/
def tcode (w : List Char) : List Nat := code w ++ [kAlphabetSize - 1]

/-- Every node of the deque is reached from the root. -/
def Reach (b : List Node) : Prop := ∀ i, i < b.length → ∃ p, walk b 0 p = some i

/-- The counter of a child is at most the counter of its parent. -/
def Mono (b : List Node) : Prop := ∀ i k c, child b i k = some c → mx b c ≤ mx b i

/-- Every node but the root has a positive counter. -/
def Pos (b : List Node) : Prop := ∀ i, 0 < i → i < b.length → 0 < mx b i

/-- The structural invariant of the deque. -/
structure Inv (b : List Node) : Prop where
  wf : WF b
  reach : Reach b
  mono : Mono b
  pos : Pos b

/-- Node `i` lies on the path `ks` from the root. -/
def OnPath (b : List Node) (ks : List Nat) (i : Nat) : Prop :=
  ∃ q r, ks = q ++ r ∧ walk b 0 q = some i

/-! ## The words of the specification -/

/-- The character is one of `'a'..'z'`. -/
def inAlphabet (c : Char) : Prop :=
  kAlphabetStartSymbol.toNat ≤ c.toNat ∧ c.toNat ≤ kAlphabetEndSymbol.toNat

instance (c : Char) : Decidable (inAlphabet c) :=
  inferInstanceAs (Decidable (_ ∧ _))

/-- A string over `'a'..'z'`. -/
def Lower (w : List Char) : Prop := ∀ c ∈ w, inAlphabet c

instance (w : List Char) : Decidable (Lower w) :=
  inferInstanceAs (Decidable (∀ c ∈ w, inAlphabet c))

/-- The greatest number of insertions among the inserted words that satisfy `f`
(`0` when there is none). -/
def maxCountBy (ws : List (List Char)) (f : List Char → Bool) : Nat :=
  ((ws.filter f).map (fun w => ws.count w)).foldr max 0

/-- The greatest number of insertions among the inserted words that have the string
`P` as a prefix. -/
def maxCount (ws : List (List Char)) (P : List Char) : Nat :=
  maxCountBy ws (fun w => decide (P <+: w))

/-- The greatest number of insertions among the inserted words whose path in the trie
goes along the path `p`. -/
def best (ws : List (List Char)) (p : List Nat) : Nat :=
  maxCountBy ws (fun w => decide (p <+: tcode w))

/-- The counter found at the end of a path from the root (`0` when there is no such
path). -/
def view (b : List Node) (p : List Nat) : Nat :=
  match walk b 0 p with
  | some i => mx b i
  | none => 0

/-- The counters of the trie are the ones the inserted words ask for. -/
def Sem (b : List Node) (ws : List (List Char)) : Prop := ∀ p, view b p = best ws p

/-- Child `k` of node `cur` exists and carries the counter of `cur`: the condition that
ends the inner loop of `PredictWord`. -/
def Good (b : List Node) (cur k : Nat) : Prop :=
  ∃ c, child b cur k = some c ∧ mx b c = mx b cur

/-- The lexicographic order on paths, symbol numbers compared as numbers (so that the
terminator, which has the greatest number, comes last). -/
def lexLe : List Nat → List Nat → Bool
  | [], _ => true
  | _ :: _, [] => false
  | a :: as, b :: bs => decide (a < b) || (decide (a = b) && lexLe as bs)

/-- The greatest counter among the existing children of a node (`0` when it has no
child). -/
def childMax (b : List Node) (n : Node) : Nat :=
  (n.children.map fun o =>
    match o with
    | some c => mx b c
    | none => 0).foldr max 0

/-- Node `i` is a terminator child: it hangs in the terminator slot of some node. -/
def IsTermNode (b : List Node) (i : Nat) : Prop :=
  ∃ j, child b j (kAlphabetSize - 1) = some i

/-- The string `W` is what the specification asks of `PredictWord(P)` when `P` is a prefix
of an inserted word: an inserted word that extends `P`, has the greatest number of
insertions among such words, and has the lexicographically least path among those. -/
def IsPrediction (ws : List (List Char)) (P W : List Char) : Prop :=
  W ∈ ws ∧ P <+: W ∧ ws.count W = maxCount ws P ∧
    ∀ w ∈ ws, P <+: w → ws.count w = maxCount ws P → lexLe (tcode W) (tcode w) = true

/-- The number of transitions along a path from node `cur` that do not exist in the
deque. -/
def missingCount (b : List Node) (cur : Nat) (ks : List Nat) : Nat :=
  (List.range ks.length).countP fun m => (walk b cur (ks.take (m + 1))).isNone

/-- Every character of the word indexes inside the array of children. -/
def InBounds (w : List Char) : Prop := ∀ c ∈ w, SymbolNumber c < kAlphabetSize

instance (w : List Char) : Decidable (InBounds w) :=
  inferInstanceAs (Decidable (∀ c ∈ w, SymbolNumber c < kAlphabetSize))

/-- The nodes at which the `while (true)` loop of `PredictWord` runs its inner scan,
in the order of the visits: the loop of `complete` with the visited nodes recorded. -/
def visited (bor : List Node) : Nat → Nat → List Nat
  | 0, _ => []
  | fuel + 1, current =>
    current ::
      (match bor[current]? with
        | none => []
        | some n =>
          match scan bor n kAlphabetSize 0 with
          | .ok next_symbol_n =>
            if SymbolFromNumber next_symbol_n = kTermSymbol then []
            else
              match n.children[next_symbol_n]? with
              | some (some c) => visited bor fuel c
              | _ => []
          | .oob => []
          | .timeout => [])

/-! ## Example sessions -/

/-- The insertions of the example of the specification: "cat" three times, "car" five
times, "cart" once. -/
def wordsCatCarCart : List (List Char) :=
  List.replicate 3 "cat".toList ++ List.replicate 5 "car".toList ++ ["cart".toList]

/-- The insertions of the tie-break example: "ab" twice and "ac" twice. -/
def wordsAbAc : List (List Char) :=
  ["ab".toList, "ab".toList, "ac".toList, "ac".toList]

/-- The insertions of a tie between a word end and two letter children: "a", "ab" and
"ac" once each. -/
def wordsAAbAc : List (List Char) :=
  ["a".toList, "ab".toList, "ac".toList]

/-- The string returned by `PredictWord(P)` on the index built from `ws`. -/
def predictOn (ws : List (List Char)) (fuel : Nat) (P : List Char) : Res (List Char) :=
  (build ws).bind fun v => (PredictWord fuel v P).bind fun r => .ok r.1

/-- The session `PredictWord(P); PredictPrevWordWithNewSymbols(S)` on the index built
from `ws`: the string returned and the cursor node left by the first call, then the
string returned, the cursor node and the cursor prefix left by the second call. -/
def session2 (ws : List (List Char)) (fuel : Nat) (P S : List Char) :
    Res (List Char × Option Nat × List Char × Option Nat × List Char) :=
  (build ws).bind fun v =>
    (PredictWord fuel v P).bind fun r1 =>
      (PredictPrevWordWithNewSymbols fuel r1.2 S).bind fun r2 =>
        .ok (r1.1, r1.2.prev_node_, r2.1, r2.2.prev_node_, r2.2.prev_prefix_)

/-- The session `PredictWord(P); PredictPrevWordWithNewSymbols(S1);
PredictPrevWordWithNewSymbols(S2)` on the index built from `ws`: the string returned by
the third call. -/
def session3 (ws : List (List Char)) (fuel : Nat) (P S1 S2 : List Char) : Res (List Char) :=
  (build ws).bind fun v =>
    (PredictWord fuel v P).bind fun r1 =>
      (PredictPrevWordWithNewSymbols fuel r1.2 S1).bind fun r2 =>
        (PredictPrevWordWithNewSymbols fuel r2.2 S2).bind fun r3 => .ok r3.1

/-! ## Reading the deque after an update -/

theorem child_append_empty (b : List Node) (i k : Nat) :
    child (b ++ [emptyNode]) i k = child b i k := by
  unfold child
  rcases Nat.lt_trichotomy i b.length with h | h | h
  · rw [List.getElem?_append_left h]
  · subst h
    simp [emptyNode, List.getElem?_replicate]
  · have h1 : (b ++ [emptyNode])[i]? = none := by
      apply List.getElem?_eq_none; simp; omega
    have h2 : b[i]? = none := List.getElem?_eq_none (by omega)
    rw [h1, h2]

theorem mx_append_empty (b : List Node) (i : Nat) :
    mx (b ++ [emptyNode]) i = mx b i := by
  unfold mx
  rcases Nat.lt_trichotomy i b.length with h | h | h
  · rw [List.getElem?_append_left h]
  · subst h
    simp [emptyNode]
  · have h1 : (b ++ [emptyNode])[i]? = none := by
      apply List.getElem?_eq_none; simp; omega
    have h2 : b[i]? = none := List.getElem?_eq_none (by omega)
    rw [h1, h2]

theorem child_set_children (b : List Node) (cur k : Nat) (n : Node) (x : Nat)
    (hn : b[cur]? = some n) (hk : n.children[k]? = some none) (i k' : Nat) :
    child (b.set cur { n with children := n.children.set k (some x) }) i k'
      = if i = cur ∧ k' = k then some x else child b i k' := by
  unfold child
  have hcur : cur < b.length := by
    rcases Nat.lt_or_ge cur b.length with h | h
    · exact h
    · rw [List.getElem?_eq_none h] at hn; cases hn
  have hkl : k < n.children.length := by
    rcases Nat.lt_or_ge k n.children.length with h | h
    · exact h
    · rw [List.getElem?_eq_none h] at hk; cases hk
  by_cases hi : i = cur
  · subst hi
    simp only [List.getElem?_set_self hcur]
    by_cases hk' : k' = k
    · subst hk'
      simp [List.getElem?_set_self hkl]
    · have : k ≠ k' := fun h => hk' h.symm
      simp [List.getElem?_set_ne this, hn, hk']
  · have : cur ≠ i := fun h => hi h.symm
    simp [List.getElem?_set_ne this, hi]

theorem mx_set_children (b : List Node) (cur : Nat) (n : Node) (l : List (Option Nat))
    (hn : b[cur]? = some n) (i : Nat) :
    mx (b.set cur { n with children := l }) i = mx b i := by
  unfold mx
  have hcur : cur < b.length := by
    rcases Nat.lt_or_ge cur b.length with h | h
    · exact h
    · rw [List.getElem?_eq_none h] at hn; cases hn
  by_cases hi : i = cur
  · subst hi
    simp [List.getElem?_set_self hcur, hn]
  · have : cur ≠ i := fun h => hi h.symm
    simp [List.getElem?_set_ne this]

theorem child_set_max (b : List Node) (cur : Nat) (n : Node) (m : Nat)
    (hn : b[cur]? = some n) (i k : Nat) :
    child (b.set cur { n with max_n := m }) i k = child b i k := by
  unfold child
  have hcur : cur < b.length := by
    rcases Nat.lt_or_ge cur b.length with h | h
    · exact h
    · rw [List.getElem?_eq_none h] at hn; cases hn
  by_cases hi : i = cur
  · subst hi
    simp [List.getElem?_set_self hcur, hn]
  · have : cur ≠ i := fun h => hi h.symm
    simp [List.getElem?_set_ne this]

theorem mx_set_max (b : List Node) (cur : Nat) (n : Node) (m : Nat)
    (hn : b[cur]? = some n) (i : Nat) :
    mx (b.set cur { n with max_n := m }) i = if i = cur then m else mx b i := by
  unfold mx
  have hcur : cur < b.length := by
    rcases Nat.lt_or_ge cur b.length with h | h
    · exact h
    · rw [List.getElem?_eq_none h] at hn; cases hn
  by_cases hi : i = cur
  · subst hi
    simp [List.getElem?_set_self hcur]
  · have : cur ≠ i := fun h => hi h.symm
    simp [List.getElem?_set_ne this, hi]

/-! ## Paths in the deque -/

theorem getElem?_lt_of_some {α : Type} {l : List α} {i : Nat} {a : α} (h : l[i]? = some a) :
    i < l.length := by
  rcases Nat.lt_or_ge i l.length with h' | h'
  · exact h'
  · rw [List.getElem?_eq_none h'] at h; cases h

theorem child_some_iff (b : List Node) (i k c : Nat) :
    child b i k = some c ↔ ∃ n, b[i]? = some n ∧ n.children[k]? = some (some c) := by
  unfold child
  constructor
  · intro h
    split at h
    · cases h
    · rename_i n hn
      split at h
      · rename_i c' hc
        cases h
        exact ⟨n, hn, hc⟩
      · cases h
  · rintro ⟨n, hn, hc⟩
    simp [hn, hc]

theorem child_eq_none_of_slot (b : List Node) (i k : Nat) (n : Node)
    (hn : b[i]? = some n) (hk : n.children[k]? = some none) : child b i k = none := by
  unfold child
  simp [hn, hk]

theorem WF.child_slot {b : List Node} (h : WF b) {i k c : Nat} (hc : child b i k = some c) :
    k < kAlphabetSize := by
  obtain ⟨n, hn, hk⟩ := (child_some_iff b i k c).1 hc
  have := h.arity n (List.getElem?_mem hn)
  have := getElem?_lt_of_some hk
  omega

theorem walk_append (b : List Node) (i : Nat) (p q : List Nat) :
    walk b i (p ++ q) = (walk b i p).bind (fun j => walk b j q) := by
  induction p generalizing i with
  | nil => simp [walk]
  | cons k p ih =>
    simp only [List.cons_append, walk]
    cases child b i k with
    | none => simp
    | some c => simpa using ih c

theorem walk_snoc (b : List Node) (i : Nat) (p : List Nat) (k j : Nat) :
    walk b i (p ++ [k]) = some j ↔ ∃ m, walk b i p = some m ∧ child b m k = some j := by
  rw [walk_append]
  cases h : walk b i p with
  | none => simp
  | some m =>
    simp only [Option.some_bind, walk, Option.some.injEq, exists_eq_left']
    cases child b m k <;> simp

theorem walk_mono {b b' : List Node}
    (h : ∀ i k c, child b i k = some c → child b' i k = some c) (i : Nat) (p : List Nat) (j : Nat)
    (hw : walk b i p = some j) : walk b' i p = some j := by
  induction p generalizing i with
  | nil => simpa [walk] using hw
  | cons k p ih =>
    simp only [walk] at hw ⊢
    cases hc : child b i k with
    | none => simp [hc] at hw
    | some c =>
      rw [hc] at hw
      rw [h i k c hc]
      exact ih c hw

theorem WF.walk_le {b : List Node} (h : WF b) {i j : Nat} {p : List Nat}
    (hw : walk b i p = some j) : i ≤ j ∧ (p ≠ [] → i < j) := by
  induction p generalizing i with
  | nil =>
    simp only [walk, Option.some.injEq] at hw
    subst hw
    simp
  | cons k p ih =>
    simp only [walk] at hw
    cases hc : child b i k with
    | none => simp [hc] at hw
    | some c =>
      rw [hc] at hw
      have h1 := (h.lt i k c hc).1
      have h2 := (ih hw).1
      constructor
      · omega
      · intro _; omega

theorem WF.walk_lt_length {b : List Node} (h : WF b) {i j : Nat} {p : List Nat}
    (hi : i < b.length) (hw : walk b i p = some j) : j < b.length := by
  induction p generalizing i with
  | nil =>
    simp only [walk, Option.some.injEq] at hw
    subst hw
    exact hi
  | cons k p ih =>
    simp only [walk] at hw
    cases hc : child b i k with
    | none => simp [hc] at hw
    | some c =>
      rw [hc] at hw
      exact ih (h.lt i k c hc).2 hw

theorem WF.walk_inj {b : List Node} (h : WF b) {i j : Nat} {p q : List Nat}
    (hp : walk b i p = some j) (hq : walk b i q = some j) : p = q := by
  induction p using List.reverseRecOn generalizing q j with
  | nil =>
    simp only [walk, Option.some.injEq] at hp
    subst hp
    by_contra hne
    have := (h.walk_le hq).2 (fun e => hne e.symm)
    omega
  | append_singleton p k ih =>
    obtain ⟨m, hm, hk⟩ := (walk_snoc b i p k j).1 hp
    rcases List.eq_nil_or_concat q with hq0 | ⟨q', k', hq0⟩
    · subst hq0
      simp only [walk, Option.some.injEq] at hq
      subst hq
      have h1 := (h.walk_le hm).1
      have h2 := (h.lt m k i hk).1
      omega
    · rw [List.concat_eq_append] at hq0
      subst hq0
      obtain ⟨m', hm', hk'⟩ := (walk_snoc b i q' k' j).1 hq
      obtain ⟨e1, e2⟩ := h.inj m k m' k' j hk hk'
      subst e1 e2
      rw [ih hm hm']

theorem walk_split {b : List Node} {i j : Nat} {p q : List Nat}
    (hw : walk b i (p ++ q) = some j) : ∃ m, walk b i p = some m ∧ walk b m q = some j := by
  rw [walk_append] at hw
  cases h : walk b i p with
  | none => simp [h] at hw
  | some m => exact ⟨m, rfl, by simpa [h] using hw⟩

/-! ## Insertion: the way down -/

theorem addStep_spec {b : List Node} (hwf : WF b) {cur k : Nat} (hcur : cur < b.length)
    (hk : k < kAlphabetSize) :
    ∃ b1 c, addStep b cur k = .ok (b1, c) ∧ WF b1 ∧ child b1 cur k = some c ∧
      (∀ i, mx b1 i = mx b i) ∧
      (∀ i k' c', child b i k' = some c' → child b1 i k' = some c') ∧
      (∀ i k' c', child b1 i k' = some c' → child b i k' = some c' ∨ (i = cur ∧ k' = k)) ∧
      ((b1 = b ∧ child b cur k = some c) ∨
        (b1.length = b.length + 1 ∧ child b cur k = none ∧ c = b.length)) := by
  obtain ⟨n, hn⟩ : ∃ n, b[cur]? = some n := ⟨b[cur], List.getElem?_eq_getElem hcur⟩
  have hlen : n.children.length = kAlphabetSize := hwf.arity n (List.getElem?_mem hn)
  obtain ⟨x, hx⟩ : ∃ x, n.children[k]? = some x :=
    ⟨n.children[k], List.getElem?_eq_getElem (by omega)⟩
  cases x with
  | some c =>
    have hc : child b cur k = some c := (child_some_iff b cur k c).2 ⟨n, hn, hx⟩
    refine ⟨b, c, ?_, hwf, hc, fun _ => rfl, fun _ _ _ h => h, fun _ _ _ h => Or.inl h,
      Or.inl ⟨rfl, hc⟩⟩
    simp [addStep, hn, hx]
  | none =>
    have hc : child b cur k = none := child_eq_none_of_slot b cur k n hn hx
    have hch : ∀ i k',
        child (b.set cur { n with children := n.children.set k (some b.length) } ++ [emptyNode])
          i k' = if i = cur ∧ k' = k then some b.length else child b i k' := by
      intro i k'
      rw [child_append_empty, child_set_children b cur k n b.length hn hx]
    refine ⟨b.set cur { n with children := n.children.set k (some b.length) } ++ [emptyNode],
      b.length, ?_, ?_, ?_, ?_, ?_, ?_, Or.inr ⟨?_, hc, rfl⟩⟩
    · simp [addStep, hn, hx]
    · constructor
      · simp
      · intro n' hn'
        rcases List.mem_append.1 hn' with h | h
        · rcases List.mem_or_eq_of_mem_set h with h | h
          · exact hwf.arity n' h
          · subst h
            simpa using hlen
        · simp only [List.mem_singleton] at h
          subst h
          simp [emptyNode]
      · intro i k' c' h
        rw [hch] at h
        simp only [List.length_append, List.length_set, List.length_singleton]
        split at h
        · rename_i hcond
          cases h
          omega
        · have := hwf.lt i k' c' h
          omega
      · intro i k1 i' k2 c' h1 h2
        rw [hch] at h1 h2
        split at h1 <;> split at h2
        · rename_i c1 c2
          omega
        · cases h1
          have := (hwf.lt i' k2 _ h2).2
          omega
        · cases h2
          have := (hwf.lt i k1 _ h1).2
          omega
        · exact hwf.inj i k1 i' k2 c' h1 h2
    · rw [hch]; simp
    · intro i
      rw [mx_append_empty, mx_set_children b cur n _ hn]
    · intro i k' c' h
      rw [hch]
      split
      · rename_i hcond
        rw [hcond.1, hcond.2, hc] at h
        cases h
      · exact h
    · intro i k' c' h
      rw [hch] at h
      split at h
      · rename_i hcond
        exact Or.inr hcond
      · exact Or.inl h
    · simp

theorem child_eq_none_of_ge (b : List Node) {i : Nat} (h : b.length ≤ i) (k : Nat) :
    child b i k = none := by
  unfold child
  rw [List.getElem?_eq_none h]

theorem missing_of_leaf (b : List Node) (c : Nat) (h : ∀ k, child b c k = none)
    (ks : List Nat) : missing b c ks = ks.length := by
  cases ks with
  | nil => rfl
  | cons k ks => simp [missing, h k]

theorem descend_spec (cs : List Char) :
    ∀ {b : List Node}, WF b → ∀ {cur : Nat}, cur < b.length → ∀ (st : List Nat),
      (∀ c ∈ cs, SymbolNumber c < kAlphabetSize) →
    ∃ b' t, descend b cur st cs = .ok (b', t, (trail b' cur (code cs)).reverse ++ st) ∧
      WF b' ∧ b'.length = b.length + missing b cur (code cs) ∧
      walk b' cur (code cs) = some t ∧
      (∀ i, mx b' i = mx b i) ∧
      (∀ i k c, child b i k = some c → child b' i k = some c) ∧
      (∀ i k c, child b' i k = some c →
        child b i k = some c ∨
          (b.length ≤ c ∧ ∃ q r, code cs = q ++ k :: r ∧ walk b' cur q = some i)) ∧
      (∀ i, i < b'.length → i < b.length ∨ ∃ q r, code cs = q ++ r ∧ walk b' cur q = some i) := by
  induction cs with
  | nil =>
    intro b hwf cur hcur st _
    exact ⟨b, cur, by simp [descend, trail, code], hwf, by simp [missing, code],
      by simp [walk, code], fun _ => rfl, fun _ _ _ h => h, fun _ _ _ h => Or.inl h,
      fun _ h => Or.inl h⟩
  | cons c0 cs ih =>
    intro b hwf cur hcur st hcs
    have hk : SymbolNumber c0 < kAlphabetSize := hcs c0 (List.mem_cons_self _ _)
    obtain ⟨b1, c, hstep, hwf1, hch1, hmx1, hpres1, hframe1, hnew1⟩ :=
      addStep_spec hwf hcur hk
    have hc1 : c < b1.length := (hwf1.lt cur _ c hch1).2
    obtain ⟨b', t, hdesc, hwf', hlen', hwalk', hmx', hpres', hframe', hnew'⟩ :=
      ih hwf1 hc1 (cur :: st) (fun x hx => hcs x (List.mem_cons_of_mem _ hx))
    have hch' : child b' cur (SymbolNumber c0) = some c := hpres' _ _ _ hch1
    have hcode : code (c0 :: cs) = SymbolNumber c0 :: code cs := rfl
    refine ⟨b', t, ?_, hwf', ?_, ?_, ?_, ?_, ?_, ?_⟩
    · simp only [descend, hstep, hdesc, hcode, trail, hch']
      simp [code]
    · rw [hlen', hcode]
      rcases hnew1 with ⟨e, hex⟩ | ⟨hl, hnone, hceq⟩
      · subst e
        simp [missing, hex]
      · have hleaf : ∀ k, child b1 c k = none := by
          intro k
          cases hck : child b1 c k with
          | none => rfl
          | some x =>
            rcases hframe1 c k x hck with h | ⟨h, _⟩
            · rw [child_eq_none_of_ge b (by omega) k] at h; cases h
            · omega
        rw [missing_of_leaf b1 c hleaf, hl]
        simp [missing, hnone, code]
        omega
    · rw [hcode]
      simp only [walk, hch']
      exact hwalk'
    · intro i; rw [hmx', hmx1]
    · intro i k x h; exact hpres' _ _ _ (hpres1 _ _ _ h)
    · intro i k x h
      have hlen1 : b.length ≤ b1.length := by
        rcases hnew1 with ⟨e, _⟩ | ⟨hl, _, _⟩
        · rw [e]
        · omega
      rcases hframe' i k x h with h1 | ⟨hx, q, r, hq, hw⟩
      · rcases hframe1 i k x h1 with h2 | ⟨e1, e2⟩
        · exact Or.inl h2
        · subst e1 e2
          rw [hch1] at h1
          cases h1
          rcases hnew1 with ⟨_, hex⟩ | ⟨_, _, hceq⟩
          · exact Or.inl hex
          · exact Or.inr ⟨by omega, [], code cs, by simp [hcode], by simp [walk]⟩
      · refine Or.inr ⟨by omega, SymbolNumber c0 :: q, r, by simp [hcode, hq], ?_⟩
        simp only [walk, hch']
        exact hw
    · intro i hi
      rcases hnew' i hi with h1 | ⟨q, r, hq, hw⟩
      · rcases hnew1 with ⟨e, _⟩ | ⟨hl, _, hceq⟩
        · subst e; exact Or.inl h1
        · by_cases hib : i < b.length
          · exact Or.inl hib
          · have : i = c := by omega
            subst this
            exact Or.inr ⟨[SymbolNumber c0], code cs, by simp [hcode], by simp [walk, hch']⟩
      · refine Or.inr ⟨SymbolNumber c0 :: q, r, by simp [hcode, hq], ?_⟩
        simp only [walk, hch']
        exact hw

/-! ## Insertion: the way back up -/

theorem exists_getElem?_of_lt {α : Type} {l : List α} {i : Nat} (h : i < l.length) :
    ∃ a, l[i]? = some a := ⟨l[i], List.getElem?_eq_getElem h⟩

theorem mx_eq_of_getElem? {b : List Node} {i : Nat} {n : Node} (h : b[i]? = some n) :
    mx b i = n.max_n := by
  simp [mx, h]

theorem propagate_spec (stack : List Nat) :
    ∀ (b : List Node) (cur : Nat), cur < b.length → (∀ s ∈ stack, s < b.length) →
      StackOK cur stack → stack.Nodup → cur ∉ stack →
      List.Pairwise (fun a c => mx b a ≤ mx b c) stack →
      (∀ n ∈ b, n.children.length = kAlphabetSize) →
    ∃ b', propagate b cur stack = .ok b' ∧ b'.length = b.length ∧
      (∀ n ∈ b', n.children.length = kAlphabetSize) ∧
      (∀ i k, child b' i k = child b i k) ∧
      (∀ i, mx b' i = if i ∈ stack then max (mx b i) (mx b cur) else mx b i) := by
  induction stack with
  | nil =>
    intro b cur _ _ hok _ _ _ har
    simp only [StackOK] at hok
    subst hok
    exact ⟨b, by simp [propagate], rfl, har, fun _ _ => rfl, fun _ => by simp⟩
  | cons s rest ih =>
    intro b cur hcur hlt hok hnd hnotin hsorted har
    obtain ⟨hne, hok'⟩ := hok
    have hs : s < b.length := hlt s (List.mem_cons_self _ _)
    obtain ⟨p, hp⟩ := exists_getElem?_of_lt hs
    obtain ⟨c, hc⟩ := exists_getElem?_of_lt hcur
    have hnd' := List.nodup_cons.1 hnd
    have hsorted' := List.pairwise_cons.1 hsorted
    have hmx1 : ∀ i, mx (b.set s { p with max_n := max p.max_n c.max_n }) i
        = if i = s then max (mx b s) (mx b cur) else mx b i := by
      intro i
      rw [mx_set_max b s p _ hp, mx_eq_of_getElem? hp, mx_eq_of_getElem? hc]
    have hch1 : ∀ i k, child (b.set s { p with max_n := max p.max_n c.max_n }) i k
        = child b i k := fun i k => child_set_max b s p _ hp i k
    obtain ⟨b', hprop, hlen, har', hch, hmx⟩ :=
      ih (b.set s { p with max_n := max p.max_n c.max_n }) s (by simpa using hs)
        (fun x hx => by simpa using hlt x (List.mem_cons_of_mem _ hx)) hok' hnd'.2 hnd'.1
        (by
          refine List.Pairwise.imp_of_mem ?_ hsorted'.2
          intro x y hx hy hxy
          have hxs : x ≠ s := fun e => hnd'.1 (e ▸ hx)
          have hys : y ≠ s := fun e => hnd'.1 (e ▸ hy)
          rw [hmx1, hmx1, if_neg hxs, if_neg hys]
          exact hxy)
        (by
          intro n hn
          rcases List.mem_or_eq_of_mem_set hn with h | h
          · exact har n h
          · subst h
            exact har p (List.getElem?_mem hp))
    refine ⟨b', ?_, by simpa using hlen, har', fun i k => by rw [hch, hch1], ?_⟩
    · simp only [propagate, if_neg hne, hp, hc]
      exact hprop
    · intro i
      rw [hmx i, hmx1, hmx1]
      by_cases his : i = s
      · subst his
        simp [hnd'.1]
      · by_cases hir : i ∈ rest
        · have hle := hsorted'.1 i hir
          simp only [if_pos hir, if_neg his, if_true, List.mem_cons, hir, or_true]
          omega
        · simp [his, hir]

theorem descend_append (cs : List Char) (c : Char) :
    ∀ (b : List Node) (cur : Nat) (st : List Nat),
      descend b cur st (cs ++ [c]) =
        match descend b cur st cs with
        | .ok (b1, cur1, st1) =>
          (match addStep b1 cur1 (SymbolNumber c) with
            | .ok (b2, t) => .ok (b2, t, cur1 :: st1)
            | .oob => .oob
            | .timeout => .timeout)
        | .oob => .oob
        | .timeout => .timeout := by
  induction cs with
  | nil =>
    intro b cur st
    simp only [List.nil_append, descend]
  | cons c0 cs ih =>
    intro b cur st
    simp only [List.cons_append, descend]
    cases addStep b cur (SymbolNumber c0) with
    | ok x => exact ih _ _ _
    | oob => rfl
    | timeout => rfl

theorem AddWord_eq (v : Vocabulary) (w : List Char) :
    AddWord v w =
      match descend v.bor_ 0 [] (w ++ [kTermSymbol]) with
      | .ok (b2, t, stack) =>
        (match b2[t]? with
          | none => .oob
          | some n =>
            match propagate (b2.set t { n with max_n := n.max_n + 1 }) t stack with
            | .ok b3 => .ok { v with bor_ := b3 }
            | .oob => .oob
            | .timeout => .timeout)
      | .oob => .oob
      | .timeout => .timeout := by
  rw [descend_append, AddWord]
  cases descend v.bor_ 0 [] w with
  | ok x =>
    obtain ⟨b1, cur, st⟩ := x
    simp only
    cases addStep b1 cur (SymbolNumber kTermSymbol) with
    | ok y => rfl
    | oob => rfl
    | timeout => rfl
  | oob => rfl
  | timeout => rfl

theorem trail_mem {b : List Node} {ks : List Nat} :
    ∀ {cur x : Nat}, x ∈ trail b cur ks →
      ∃ q r, ks = q ++ r ∧ r ≠ [] ∧ walk b cur q = some x := by
  induction ks with
  | nil => intro cur x h; simp [trail] at h
  | cons k ks ih =>
    intro cur x h
    simp only [trail, List.mem_cons] at h
    rcases h with h | h
    · subst h
      exact ⟨[], k :: ks, rfl, by simp, rfl⟩
    · cases hc : child b cur k with
      | none => simp [hc] at h
      | some c =>
        rw [hc] at h
        obtain ⟨q, r, hq, hr, hw⟩ := ih h
        exact ⟨k :: q, r, by simp [hq], hr, by simp [walk, hc, hw]⟩

theorem mem_trail_of_walk {b : List Node} (q : List Nat) :
    ∀ {cur x : Nat} (r : List Nat), r ≠ [] → walk b cur q = some x → x ∈ trail b cur (q ++ r) := by
  induction q with
  | nil =>
    intro cur x r hr hw
    simp only [walk, Option.some.injEq] at hw
    subst hw
    cases r with
    | nil => exact absurd rfl hr
    | cons k r => simp [trail]
  | cons k q ih =>
    intro cur x r hr hw
    simp only [walk] at hw
    cases hc : child b cur k with
    | none => simp [hc] at hw
    | some c =>
      rw [hc] at hw
      simp only [List.cons_append, trail, hc, List.mem_cons]
      exact Or.inr (ih r hr hw)

theorem trail_pairwise (b : List Node) (ks : List Nat) :
    ∀ cur, (trail b cur ks).Pairwise (fun a c => ∃ p, p ≠ [] ∧ walk b a p = some c) := by
  induction ks with
  | nil => intro cur; simp [trail]
  | cons k ks ih =>
    intro cur
    simp only [trail]
    cases hc : child b cur k with
    | none => simp
    | some c =>
      simp only [List.pairwise_cons]
      refine ⟨?_, ih c⟩
      intro x hx
      obtain ⟨q, r, _, _, hw⟩ := trail_mem hx
      exact ⟨k :: q, by simp, by simp [walk, hc, hw]⟩

theorem StackOK_append_zero (l : List Nat) :
    ∀ cur, cur ≠ 0 → (∀ s ∈ l, s ≠ 0) → StackOK cur (l ++ [0]) := by
  induction l with
  | nil => intro cur h _; exact ⟨h, rfl⟩
  | cons s l ih =>
    intro cur h hl
    exact ⟨h, ih s (hl s (List.mem_cons_self _ _)) (fun x hx => hl x (List.mem_cons_of_mem _ hx))⟩

theorem Mono.walk_mx_le {b : List Node} (h : Mono b) {p : List Nat} :
    ∀ {i j : Nat}, walk b i p = some j → mx b j ≤ mx b i := by
  induction p with
  | nil =>
    intro i j hw
    simp only [walk, Option.some.injEq] at hw
    subst hw
    exact le_refl _
  | cons k p ih =>
    intro i j hw
    simp only [walk] at hw
    cases hc : child b i k with
    | none => simp [hc] at hw
    | some c =>
      rw [hc] at hw
      exact le_trans (ih hw) (h i k c hc)

theorem mx_eq_zero_of_ge (b : List Node) {i : Nat} (h : b.length ≤ i) : mx b i = 0 := by
  unfold mx
  rw [List.getElem?_eq_none h]

theorem SymbolNumber_term : SymbolNumber kTermSymbol = kAlphabetSize - 1 := by decide

theorem code_append_term (w : List Char) : code (w ++ [kTermSymbol]) = tcode w := by
  simp [code, tcode, SymbolNumber_term]

theorem walk_congr {b b' : List Node} (h : ∀ i k, child b' i k = child b i k) (p : List Nat) :
    ∀ i, walk b' i p = walk b i p := by
  induction p with
  | nil => intro i; rfl
  | cons k p ih =>
    intro i
    simp only [walk, h]
    cases child b i k with
    | none => rfl
    | some c => exact ih c

theorem WF.congr {b b' : List Node} (hwf : WF b) (hlen : b'.length = b.length)
    (har : ∀ n ∈ b', n.children.length = kAlphabetSize)
    (hch : ∀ i k, child b' i k = child b i k) : WF b' := by
  constructor
  · rw [hlen]; exact hwf.root
  · exact har
  · intro i k c h
    rw [hch] at h
    rw [hlen]
    exact hwf.lt i k c h
  · intro i k i' k' c h1 h2
    rw [hch] at h1 h2
    exact hwf.inj i k i' k' c h1 h2

/-- The shape of the stack of parents at the end of the way down. -/
theorem trail_stack {b : List Node} (hwf : WF b) {ks : List Nat} {t : Nat}
    (hks : ks ≠ []) (hwalk : walk b 0 ks = some t) :
    (∀ x ∈ trail b 0 ks, x < t ∧ x < b.length) ∧ StackOK t (trail b 0 ks).reverse ∧
      (trail b 0 ks).reverse.Nodup := by
  have hlt : ∀ x ∈ trail b 0 ks, x < t ∧ x < b.length := by
    intro x hx
    obtain ⟨q, r, hq, hr, hw⟩ := trail_mem hx
    rw [hq] at hwalk
    obtain ⟨m, hm, hmt⟩ := walk_split hwalk
    rw [hw] at hm
    cases hm
    have h1 := (hwf.walk_le hmt).2 hr
    have h2 := hwf.walk_lt_length hwf.root hwalk
    omega
  have hpw := trail_pairwise b ks 0
  refine ⟨hlt, ?_, ?_⟩
  · obtain ⟨k, ks', rfl⟩ := List.exists_cons_of_ne_nil hks
    have ht : trail b 0 (k :: ks') = 0 :: (match child b 0 k with
      | some c => trail b c ks'
      | none => []) := rfl
    rw [ht] at hpw hlt ⊢
    rw [List.reverse_cons]
    apply StackOK_append_zero
    · have := (hlt 0 (List.mem_cons_self _ _)).1
      omega
    · intro s hs
      rw [List.mem_reverse] at hs
      obtain ⟨p, hp, hw⟩ := (List.pairwise_cons.1 hpw).1 s hs
      have := (hwf.walk_le hw).2 hp
      omega
  · rw [List.nodup_reverse]
    refine List.Pairwise.imp ?_ hpw
    intro a c ⟨p, hp, hw⟩
    have := (hwf.walk_le hw).2 hp
    omega

theorem onPath_iff_trail {b : List Node} {ks : List Nat} {t : Nat}
    (hwalk : walk b 0 ks = some t) (i : Nat) :
    OnPath b ks i ↔ i ∈ trail b 0 ks ∨ i = t := by
  constructor
  · rintro ⟨q, r, hq, hw⟩
    by_cases hr : r = []
    · subst hr
      rw [List.append_nil] at hq
      subst hq
      rw [hw] at hwalk
      cases hwalk
      exact Or.inr rfl
    · rw [hq]
      exact Or.inl (mem_trail_of_walk q r hr hw)
  · rintro (h | h)
    · obtain ⟨q, r, hq, _, hw⟩ := trail_mem h
      exact ⟨q, r, hq, hw⟩
    · subst h
      exact ⟨ks, [], by simp, hwalk⟩

/-! ## Insertion: the whole call -/

theorem SymbolNumber_term_lt : SymbolNumber kTermSymbol < kAlphabetSize := by decide

theorem tcode_ne_nil (w : List Char) : tcode w ≠ [] := by simp [tcode]

/-- The effect of `AddWord` on the deque. -/
theorem AddWord_struct {v : Vocabulary} (hinv : Inv v.bor_) (w : List Char)
    (hw : ∀ c ∈ w, SymbolNumber c < kAlphabetSize) :
    ∃ b' t, AddWord v w = .ok { v with bor_ := b' } ∧ Inv b' ∧
      b'.length = v.bor_.length + missing v.bor_ 0 (tcode w) ∧
      walk b' 0 (tcode w) = some t ∧
      (∀ i k c, child v.bor_ i k = some c → child b' i k = some c) ∧
      (∀ i k c, child b' i k = some c → child v.bor_ i k = some c ∨
        (v.bor_.length ≤ c ∧ ∃ q r, tcode w = q ++ k :: r ∧ walk b' 0 q = some i)) ∧
      (∀ i, i < b'.length → i < v.bor_.length ∨ OnPath b' (tcode w) i) ∧
      (∀ i, OnPath b' (tcode w) i → mx b' i = max (mx v.bor_ i) (mx v.bor_ t + 1)) ∧
      (∀ i, ¬ OnPath b' (tcode w) i → mx b' i = mx v.bor_ i) := by
  have hcs : ∀ c ∈ w ++ [kTermSymbol], SymbolNumber c < kAlphabetSize := by
    intro c hc
    rcases List.mem_append.1 hc with h | h
    · exact hw c h
    · simp only [List.mem_singleton] at h
      subst h
      exact SymbolNumber_term_lt
  obtain ⟨b2, t, hdesc, hwf2, hlen2, hwalk2, hmx2, hpres2, hframe2, hnew2⟩ :=
    descend_spec (w ++ [kTermSymbol]) hinv.wf hinv.wf.root [] hcs
  rw [code_append_term] at hdesc hlen2 hwalk2 hframe2 hnew2
  rw [List.append_nil] at hdesc
  have ht : t < b2.length := hwf2.walk_lt_length hwf2.root hwalk2
  obtain ⟨n, hn⟩ := exists_getElem?_of_lt ht
  have hmxinc : ∀ i, mx (b2.set t { n with max_n := n.max_n + 1 }) i
      = if i = t then mx b2 t + 1 else mx b2 i := by
    intro i
    rw [mx_set_max b2 t n _ hn, mx_eq_of_getElem? hn]
  have hchinc : ∀ i k, child (b2.set t { n with max_n := n.max_n + 1 }) i k = child b2 i k :=
    fun i k => child_set_max b2 t n _ hn i k
  have hmono2 : Mono b2 := by
    intro i k c hc
    rw [hmx2, hmx2]
    rcases hframe2 i k c hc with h | ⟨h, _⟩
    · exact hinv.mono i k c h
    · rw [mx_eq_zero_of_ge _ h]; exact Nat.zero_le _
  obtain ⟨hTlt, hTok, hTnd⟩ := trail_stack hwf2 (tcode_ne_nil w) hwalk2
  have hpw := trail_pairwise b2 (tcode w) 0
  obtain ⟨b', hprop, hlen', har', hch', hmx'⟩ :=
    propagate_spec (trail b2 0 (tcode w)).reverse (b2.set t { n with max_n := n.max_n + 1 }) t
      (by simpa using ht)
      (fun s hs => by simpa using (hTlt s (List.mem_reverse.1 hs)).2)
      hTok hTnd
      (fun h => by have := (hTlt t (List.mem_reverse.1 h)).1; omega)
      (by
        rw [List.pairwise_reverse]
        refine List.Pairwise.imp_of_mem ?_ hpw
        intro a c ha hc ⟨p, _, hwp⟩
        have h1 := (hTlt a ha).1
        have h2 := (hTlt c hc).1
        rw [hmxinc, hmxinc, if_neg (by omega), if_neg (by omega)]
        exact hmono2.walk_mx_le hwp)
      (by
        intro x hx
        rcases List.mem_or_eq_of_mem_set hx with h | h
        · exact hwf2.arity x h
        · subst h
          exact hwf2.arity n (List.getElem?_mem hn))
  have hlen'' : b'.length = b2.length := by simpa using hlen'
  have hch : ∀ i k, child b' i k = child b2 i k := fun i k => by rw [hch', hchinc]
  have hwk : ∀ p i, walk b' i p = walk b2 i p := walk_congr hch
  have hwf' : WF b' := hwf2.congr hlen'' har' hch
  have hon : ∀ i, OnPath b' (tcode w) i ↔ i ∈ trail b2 0 (tcode w) ∨ i = t := by
    intro i
    rw [← onPath_iff_trail hwalk2]
    simp only [OnPath, hwk]
  have hmxon : ∀ i, OnPath b' (tcode w) i → mx b' i = max (mx v.bor_ i) (mx v.bor_ t + 1) := by
    intro i hi
    rw [hmx', hmxinc, hmxinc, if_pos rfl, hmx2, hmx2]
    rcases (hon i).1 hi with h | h
    · have := (hTlt i h).1
      rw [if_pos (List.mem_reverse.2 h), if_neg (by omega)]
    · subst h
      rw [if_neg (fun h => by have := (hTlt i (List.mem_reverse.1 h)).1; omega), if_pos rfl]
      omega
  have hmxoff : ∀ i, ¬ OnPath b' (tcode w) i → mx b' i = mx v.bor_ i := by
    intro i hi
    rw [hon] at hi
    rw [hmx', hmxinc, if_neg (fun h => hi (Or.inl (List.mem_reverse.1 h))),
      if_neg (fun h => hi (Or.inr h)), hmx2]
  have hge : ∀ i, mx v.bor_ i ≤ mx b' i := by
    intro i
    by_cases hi : OnPath b' (tcode w) i
    · rw [hmxon i hi]; exact le_max_left _ _
    · rw [hmxoff i hi]
  have hnew : ∀ i, i < b'.length → i < v.bor_.length ∨ OnPath b' (tcode w) i := by
    intro i hi
    rw [hlen''] at hi
    rcases hnew2 i hi with h | ⟨q, r, hq, hwq⟩
    · exact Or.inl h
    · exact Or.inr ⟨q, r, hq, by rw [hwk]; exact hwq⟩
  refine ⟨b', t, ?_, ⟨hwf', ?_, ?_, ?_⟩, ?_, ?_, ?_, ?_, hnew, hmxon, hmxoff⟩
  · rw [AddWord_eq, hdesc]
    simp only [hn, hprop]
  · intro i hi
    rcases hnew i hi with h | ⟨q, _, _, hwq⟩
    · obtain ⟨p, hp⟩ := hinv.reach i h
      exact ⟨p, by rw [hwk]; exact walk_mono hpres2 0 p i hp⟩
    · exact ⟨q, hwq⟩
  · intro i k c hc
    by_cases hcon : OnPath b' (tcode w) c
    · have hion : OnPath b' (tcode w) i := by
        obtain ⟨q, r, hq, hwq⟩ := hcon
        have hci := (hwf'.lt i k c hc).1
        rcases List.eq_nil_or_concat q with h0 | ⟨q', k', h0⟩
        · subst h0
          simp only [walk, Option.some.injEq] at hwq
          omega
        · rw [List.concat_eq_append] at h0
          subst h0
          obtain ⟨m, hm, hmk⟩ := (walk_snoc b' 0 q' k' c).1 hwq
          obtain ⟨e, _⟩ := hwf'.inj m k' i k c hmk hc
          subst e
          exact ⟨q', [k'] ++ r, by simp [hq], hm⟩
      rw [hmxon c hcon, hmxon i hion]
      have : mx v.bor_ c ≤ mx v.bor_ i := by
        have := hmono2 i k c (by rw [← hch]; exact hc)
        rwa [hmx2, hmx2] at this
      omega
    · rw [hmxoff c hcon]
      have : mx v.bor_ c ≤ mx v.bor_ i := by
        have := hmono2 i k c (by rw [← hch]; exact hc)
        rwa [hmx2, hmx2] at this
      exact le_trans this (hge i)
  · intro i hi0 hi
    rcases hnew i hi with h | h
    · exact lt_of_lt_of_le (hinv.pos i hi0 h) (hge i)
    · rw [hmxon i h]
      omega
  · rw [hlen'', hlen2]
  · rw [hwk]; exact hwalk2
  · intro i k c hc
    rw [hch]
    exact hpres2 i k c hc
  · intro i k c hc
    rw [hch] at hc
    rcases hframe2 i k c hc with h | ⟨h, q, r, hq, hwq⟩
    · exact Or.inl h
    · exact Or.inr ⟨h, q, r, hq, by rw [hwk]; exact hwq⟩

/-! ## Insertion counts -/

theorem foldr_max_le (l : List Nat) (m : Nat) : l.foldr max 0 ≤ m ↔ ∀ x ∈ l, x ≤ m := by
  induction l with
  | nil => simp
  | cons a l ih => simp [ih]

theorem foldr_max_mem (l : List Nat) (h : l ≠ []) : l.foldr max 0 ∈ l := by
  induction l with
  | nil => exact absurd rfl h
  | cons a l ih =>
    simp only [List.foldr_cons, List.mem_cons]
    by_cases hl : l = []
    · subst hl; simp
    · have := ih hl
      rcases Nat.le_total a (l.foldr max 0) with h1 | h1
      · rw [max_eq_right h1]; exact Or.inr this
      · rw [max_eq_left h1]; exact Or.inl rfl

theorem maxCountBy_le (ws : List (List Char)) (f : List Char → Bool) (m : Nat) :
    maxCountBy ws f ≤ m ↔ ∀ w ∈ ws, f w = true → ws.count w ≤ m := by
  unfold maxCountBy
  rw [foldr_max_le]
  simp only [List.mem_map, List.mem_filter, forall_exists_index, and_imp]
  constructor
  · intro h w hw hf
    exact h _ w hw hf rfl
  · intro h x w hw hf e
    subst e
    exact h w hw hf

theorem maxCountBy_attained (ws : List (List Char)) (f : List Char → Bool)
    (h : ∃ w ∈ ws, f w = true) : ∃ w ∈ ws, f w = true ∧ ws.count w = maxCountBy ws f := by
  obtain ⟨w0, hw0, hf0⟩ := h
  have hne : (ws.filter f).map (fun w => ws.count w) ≠ [] := by
    intro e
    have : w0 ∈ ws.filter f := List.mem_filter.2 ⟨hw0, hf0⟩
    rw [List.map_eq_nil_iff] at e
    rw [e] at this
    cases this
  have := foldr_max_mem _ hne
  simp only [List.mem_map, List.mem_filter] at this
  obtain ⟨w, ⟨hw, hf⟩, e⟩ := this
  exact ⟨w, hw, hf, e⟩

theorem maxCountBy_pos (ws : List (List Char)) (f : List Char → Bool) :
    0 < maxCountBy ws f ↔ ∃ w ∈ ws, f w = true := by
  constructor
  · intro h
    by_contra hne
    have : maxCountBy ws f ≤ 0 := by
      rw [maxCountBy_le]
      intro w hw hf
      exact absurd ⟨w, hw, hf⟩ hne
    omega
  · intro h
    obtain ⟨w, hw, _, e⟩ := maxCountBy_attained ws f h
    rw [← e]
    exact List.count_pos_iff.2 hw

theorem maxCountBy_congr (ws : List (List Char)) (f g : List Char → Bool)
    (h : ∀ w ∈ ws, f w = g w) : maxCountBy ws f = maxCountBy ws g := by
  unfold maxCountBy
  rw [List.filter_congr h]

theorem best_le (ws : List (List Char)) (p : List Nat) (m : Nat) :
    best ws p ≤ m ↔ ∀ w ∈ ws, p <+: tcode w → ws.count w ≤ m := by
  unfold best
  rw [maxCountBy_le]
  simp

theorem best_snoc (ws : List (List Char)) (w : List Char) (p : List Nat) :
    best (ws ++ [w]) p = if p <+: tcode w then max (best ws p) (ws.count w + 1) else best ws p := by
  apply eq_of_forall_ge_iff
  intro m
  rw [best_le]
  have hcount : ∀ w', (ws ++ [w]).count w' = ws.count w' + if w = w' then 1 else 0 := by
    intro w'
    rw [List.count_append, List.count_singleton]
    by_cases h : w = w'
    · subst h; simp
    · simp [h]
  split
  · rename_i hp
    rw [max_le_iff, best_le]
    constructor
    · intro h
      refine ⟨fun w' hw' hpw' => ?_, ?_⟩
      · have := h w' (List.mem_append_left _ hw') hpw'
        rw [hcount] at this
        omega
      · have := h w (List.mem_append_right _ (List.mem_singleton_self _)) hp
        rw [hcount] at this
        simpa using this
    · rintro ⟨h1, h2⟩ w' hw' hpw'
      rw [hcount]
      by_cases e : w = w'
      · subst e; simpa using h2
      · rcases List.mem_append.1 hw' with h | h
        · have := h1 w' h hpw'
          simp [e, this]
        · simp only [List.mem_singleton] at h
          exact absurd h.symm e
  · rename_i hp
    rw [best_le]
    constructor
    · intro h w' hw' hpw'
      have := h w' (List.mem_append_left _ hw') hpw'
      rw [hcount] at this
      omega
    · intro h w' hw' hpw'
      have e : w ≠ w' := fun e => hp (e ▸ hpw')
      rw [hcount]
      rcases List.mem_append.1 hw' with h' | h'
      · have := h w' h' hpw'
        simp [e, this]
      · simp only [List.mem_singleton] at h'
        exact absurd h'.symm e

theorem best_anti (ws : List (List Char)) {p q : List Nat} (h : p <+: q) :
    best ws q ≤ best ws p := by
  rw [best_le]
  intro w hw hq
  exact (best_le ws p _).1 (le_refl _) w hw (h.trans hq)

/-! ## Words over the alphabet and their paths -/

theorem SymbolNumber_lower {c : Char} (h : inAlphabet c) :
    SymbolNumber c + 97 = c.toNat ∧ SymbolNumber c < kAlphabetSize - 1 := by
  obtain ⟨h1, h2⟩ := h
  have e1 : kAlphabetStartSymbol.toNat = 97 := by decide
  have e2 : kAlphabetEndSymbol.toNat = 122 := by decide
  have e3 : kAlphabetSize = 27 := by decide
  rw [e1] at h1
  rw [e2] at h2
  have hne : c ≠ kTermSymbol := by
    intro e
    subst e
    revert h1
    decide
  unfold SymbolNumber
  rw [if_pos hne, e1, e3]
  have : ((c.toNat : Int) - ((97 : Nat) : Int)) % (2 : Int) ^ 64 = (c.toNat : Int) - 97 := by
    apply Int.emod_eq_of_lt
    · omega
    · norm_num; omega
  rw [this]
  omega

theorem SymbolFromNumber_SymbolNumber {c : Char} (h : inAlphabet c) :
    SymbolFromNumber (SymbolNumber c) = c := by
  obtain ⟨h1, h2⟩ := SymbolNumber_lower h
  unfold SymbolFromNumber
  rw [if_pos h2]
  have e1 : kAlphabetStartSymbol.toNat = 97 := by decide
  rw [e1, Nat.add_comm, h1, Char.ofNat_toNat]

theorem SymbolFromNumber_lower :
    ∀ k, k < kAlphabetSize - 1 →
      inAlphabet (SymbolFromNumber k) ∧ SymbolNumber (SymbolFromNumber k) = k ∧
        SymbolFromNumber k ≠ kTermSymbol := by
  decide

theorem SymbolFromNumber_eq_term (k : Nat) :
    SymbolFromNumber k = kTermSymbol ↔ kAlphabetSize - 1 ≤ k := by
  constructor
  · intro h
    by_contra hlt
    exact (SymbolFromNumber_lower k (by omega)).2.2 h
  · intro h
    unfold SymbolFromNumber
    rw [if_neg (by omega)]

theorem code_lt {w : List Char} (h : Lower w) : ∀ k ∈ code w, k < kAlphabetSize - 1 := by
  intro k hk
  simp only [code, List.mem_map] at hk
  obtain ⟨c, hc, e⟩ := hk
  subst e
  exact (SymbolNumber_lower (h c hc)).2

theorem decode_code {w : List Char} (h : Lower w) : (code w).map SymbolFromNumber = w := by
  induction w with
  | nil => rfl
  | cons c w ih =>
    simp only [code, List.map_cons, List.cons.injEq]
    exact ⟨SymbolFromNumber_SymbolNumber (h c (List.mem_cons_self _ _)),
      ih (fun x hx => h x (List.mem_cons_of_mem _ hx))⟩

theorem code_prefix_iff {P w : List Char} (hP : Lower P) (hw : Lower w) :
    code P <+: code w ↔ P <+: w := by
  constructor
  · intro h
    have := List.IsPrefix.map SymbolFromNumber h
    rwa [decode_code hP, decode_code hw] at this
  · intro h
    exact List.IsPrefix.map SymbolNumber h

theorem code_inj {P w : List Char} (hP : Lower P) (hw : Lower w) (h : code P = code w) :
    P = w := by
  rw [← decode_code hP, ← decode_code hw, h]

theorem code_ne_tcode {P : List Char} (hP : Lower P) (w : List Char) : code P ≠ tcode w := by
  intro e
  have : kAlphabetSize - 1 ∈ code P := by rw [e]; simp [tcode]
  have := code_lt hP _ this
  omega

theorem code_prefix_tcode_iff {P w : List Char} (hP : Lower P) (hw : Lower w) :
    code P <+: tcode w ↔ P <+: w := by
  unfold tcode
  rw [List.prefix_concat_iff, ← code_prefix_iff hP hw]
  constructor
  · rintro (h | h)
    · exact absurd h (code_ne_tcode hP w)
    · exact h
  · exact Or.inr

theorem tcode_prefix_tcode_iff {w w' : List Char} (hw : Lower w) (hw' : Lower w') :
    tcode w <+: tcode w' ↔ w = w' := by
  constructor
  · intro h
    have h' : tcode w <+: code w' ++ [kAlphabetSize - 1] := h
    rw [List.prefix_concat_iff] at h'
    rcases h' with h | h
    · have : code w = code w' := by
        simpa [tcode] using h
      exact code_inj hw hw' this
    · exfalso
      have : kAlphabetSize - 1 ∈ code w' := h.subset (by simp [tcode])
      have := code_lt hw' _ this
      omega
  · rintro rfl
    exact List.prefix_refl _

theorem prefix_tcode_cases {p : List Nat} {w : List Char} (hw : Lower w) (h : p <+: tcode w) :
    p = tcode w ∨ ∃ P, Lower P ∧ P <+: w ∧ p = code P := by
  rw [tcode, List.prefix_concat_iff] at h
  change p = tcode w ∨ p <+: code w at h
  rcases h with h | h
  · exact Or.inl h
  · refine Or.inr ⟨w.take p.length, ?_, List.take_prefix _ _, ?_⟩
    · intro c hc
      exact hw c (List.mem_of_mem_take hc)
    · rw [List.prefix_iff_eq_take] at h
      rw [code, List.map_take]
      simpa [code] using h

theorem maxCount_eq_best {ws : List (List Char)} (hws : ∀ w ∈ ws, Lower w) {P : List Char}
    (hP : Lower P) : maxCount ws P = best ws (code P) := by
  unfold maxCount best
  apply maxCountBy_congr
  intro w hw
  rw [decide_eq_decide]
  exact (code_prefix_tcode_iff hP (hws w hw)).symm

theorem best_tcode {ws : List (List Char)} (hws : ∀ w ∈ ws, Lower w) {w : List Char}
    (hw : Lower w) : best ws (tcode w) = ws.count w := by
  apply le_antisymm
  · rw [best_le]
    intro w' hw' h
    rw [(tcode_prefix_tcode_iff hw (hws w' hw')).1 h]
  · by_cases hm : w ∈ ws
    · exact (best_le ws _ _).1 (le_refl _) w hm (List.prefix_refl _)
    · rw [List.count_eq_zero_of_not_mem hm]
      exact Nat.zero_le _

/-! ## The invariants of a built index -/

theorem Lower.symbol_lt {w : List Char} (h : Lower w) :
    ∀ c ∈ w, SymbolNumber c < kAlphabetSize := by
  intro c hc
  have := (SymbolNumber_lower (h c hc)).2
  omega

/-- The counter a node had before an insertion is the one its path asked for. -/
theorem view_transfer {b b' : List Node} (hinv : Inv b) (hwf' : WF b')
    (hpres : ∀ i k c, child b i k = some c → child b' i k = some c)
    {q : List Nat} {i : Nat} (hw : walk b' 0 q = some i) : mx b i = view b q := by
  unfold view
  cases h : walk b 0 q with
  | some i0 =>
    have := walk_mono hpres 0 q i0 h
    rw [hw] at this
    cases this
    rfl
  | none =>
    simp only
    by_cases hi : i < b.length
    · obtain ⟨q0, hq0⟩ := hinv.reach i hi
      have h1 := walk_mono hpres 0 q0 i hq0
      have := hwf'.walk_inj h1 hw
      subst this
      rw [h] at hq0
      cases hq0
    · exact mx_eq_zero_of_ge b (by omega)

theorem AddWord_sem {v v' : Vocabulary} {ws : List (List Char)} {w : List Char}
    (hinv : Inv v.bor_) (hsem : Sem v.bor_ ws) (hws : ∀ w ∈ ws, Lower w) (hw : Lower w)
    (hadd : AddWord v w = .ok v') : Sem v'.bor_ (ws ++ [w]) := by
  obtain ⟨b', t, hadd', hinv', _, hwalk, hpres, _, _, hon, hoff⟩ :=
    AddWord_struct hinv w hw.symbol_lt
  rw [hadd] at hadd'
  cases hadd'
  simp only
  have hvt : ∀ {q i}, walk b' 0 q = some i → mx v.bor_ i = best ws q := by
    intro q i h
    rw [view_transfer hinv hinv'.wf hpres h, hsem]
  have ht : mx v.bor_ t = ws.count w := by
    rw [hvt hwalk, best_tcode hws hw]
  intro p
  rw [best_snoc]
  unfold view
  cases hp : walk b' 0 p with
  | none =>
    simp only
    have h1 : ¬ p <+: tcode w := by
      rintro ⟨r, hr⟩
      rw [← hr] at hwalk
      obtain ⟨m, hm, _⟩ := walk_split hwalk
      rw [hp] at hm
      cases hm
    have h2 : walk v.bor_ 0 p = none := by
      cases h : walk v.bor_ 0 p with
      | none => rfl
      | some i =>
        have := walk_mono hpres 0 p i h
        rw [hp] at this
        cases this
    rw [if_neg h1, ← hsem]
    simp [view, h2]
  | some i =>
    simp only
    by_cases h1 : p <+: tcode w
    · rw [if_pos h1]
      obtain ⟨r, hr⟩ := h1
      rw [hon i ⟨p, r, hr.symm, hp⟩, hvt hp, ht]
    · rw [if_neg h1]
      have hnot : ¬ OnPath b' (tcode w) i := by
        rintro ⟨q, r, hq, hwq⟩
        have := hinv'.wf.walk_inj hwq hp
        subst this
        exact h1 ⟨r, hq.symm⟩
      rw [hoff i hnot, hvt hp]

theorem AddWord_prev {v v' : Vocabulary} {w : List Char} (h : AddWord v w = .ok v') :
    v'.prev_prefix_ = v.prev_prefix_ ∧ v'.prev_node_ = v.prev_node_ := by
  rw [AddWord_eq] at h
  split at h
  · split at h
    · cases h
    · split at h
      · cases h
        exact ⟨rfl, rfl⟩
      · cases h
      · cases h
  · cases h
  · cases h

theorem addWords_append (ws : List (List Char)) (w : List Char) :
    ∀ v, addWords v (ws ++ [w]) =
      match addWords v ws with
      | .ok v1 => AddWord v1 w
      | .oob => .oob
      | .timeout => .timeout := by
  induction ws with
  | nil =>
    intro v
    simp only [List.nil_append, addWords]
    cases AddWord v w <;> rfl
  | cons w0 ws ih =>
    intro v
    simp only [List.cons_append, addWords]
    cases AddWord v w0 with
    | ok v1 => exact ih v1
    | oob => rfl
    | timeout => rfl

theorem inv_new : Inv new.bor_ := by
  have hch : ∀ i k, child [emptyNode] i k = none := by
    intro i k
    have := child_append_empty [] i k
    simp only [List.nil_append] at this
    rw [this]
    exact child_eq_none_of_ge [] (Nat.zero_le _) k
  refine ⟨⟨by simp [new], ?_, ?_, ?_⟩, ?_, ?_, ?_⟩
  · intro n hn
    simp only [new, List.mem_singleton] at hn
    subst hn
    simp [emptyNode]
  · intro i k c h
    rw [new, hch] at h
    cases h
  · intro i k i' k' c h
    rw [new, hch] at h
    cases h
  · intro i hi
    simp only [new, List.length_singleton] at hi
    exact ⟨[], by simp [walk]; omega⟩
  · intro i k c h
    rw [new, hch] at h
    cases h
  · intro i h0 hi
    simp only [new, List.length_singleton] at hi
    omega

theorem sem_new : Sem new.bor_ [] := by
  intro p
  have hb : best [] p = 0 := by simp [best, maxCountBy]
  rw [hb]
  unfold view
  cases h : walk new.bor_ 0 p with
  | none => rfl
  | some i =>
    simp only
    have := inv_new.wf.walk_lt_length inv_new.wf.root h
    simp only [new, List.length_singleton] at this
    have : i = 0 := by omega
    subst this
    rfl

/-- Building an index from words over the alphabet succeeds and establishes the
invariants. -/
theorem build_inv (ws : List (List Char)) (hws : ∀ w ∈ ws, Lower w) :
    ∃ v, build ws = .ok v ∧ Inv v.bor_ ∧ Sem v.bor_ ws ∧
      v.prev_prefix_ = [] ∧ v.prev_node_ = none := by
  induction ws using List.reverseRecOn with
  | nil => exact ⟨new, rfl, inv_new, sem_new, rfl, rfl⟩
  | append_singleton ws w ih =>
    obtain ⟨v, hv, hinv, hsem, hp1, hp2⟩ :=
      ih (fun x hx => hws x (List.mem_append_left _ hx))
    have hw : Lower w := hws w (List.mem_append_right _ (List.mem_singleton_self _))
    obtain ⟨b', t, hadd, hinv', _⟩ := AddWord_struct hinv w hw.symbol_lt
    refine ⟨{ v with bor_ := b' }, ?_, hinv', ?_, hp1, hp2⟩
    · unfold build at hv ⊢
      rw [addWords_append, hv]
      exact hadd
    · exact AddWord_sem hinv hsem (fun x hx => hws x (List.mem_append_left _ hx)) hw hadd

/-! ## Lookup and the loops of the completion -/

theorem findLoop_eq {b : List Node} (hwf : WF b) (cs : List Char) :
    ∀ {cur : Nat}, cur < b.length → (∀ c ∈ cs, SymbolNumber c < kAlphabetSize) →
      findLoop b cur cs = .ok (walk b cur (code cs)) := by
  induction cs with
  | nil => intro cur _ _; rfl
  | cons c0 cs ih =>
    intro cur hcur hcs
    obtain ⟨n, hn⟩ := exists_getElem?_of_lt hcur
    have hlen : n.children.length = kAlphabetSize := hwf.arity n (List.getElem?_mem hn)
    have hk : SymbolNumber c0 < kAlphabetSize := hcs c0 (List.mem_cons_self _ _)
    obtain ⟨x, hx⟩ : ∃ x, n.children[SymbolNumber c0]? = some x :=
      exists_getElem?_of_lt (by omega)
    have hcode : code (c0 :: cs) = SymbolNumber c0 :: code cs := rfl
    rw [hcode]
    cases x with
    | none =>
      have hc := child_eq_none_of_slot b cur _ n hn hx
      simp [findLoop, hn, hx, walk, hc]
    | some c =>
      have hc : child b cur (SymbolNumber c0) = some c :=
        (child_some_iff b cur _ c).2 ⟨n, hn, hx⟩
      simp only [findLoop, hn, hx, walk, hc]
      exact ih (hwf.lt _ _ _ hc).2 (fun y hy => hcs y (List.mem_cons_of_mem _ hy))

theorem scan_spec {b : List Node} (hwf : WF b) {cur : Nat} {n : Node} (hn : b[cur]? = some n) :
    ∀ rem i, i + rem = kAlphabetSize →
      (∃ k, scan b n rem i = .ok k ∧ i ≤ k ∧ k < kAlphabetSize ∧ Good b cur k ∧
          ∀ j, i ≤ j → j < k → ¬ Good b cur j) ∨
        (scan b n rem i = .oob ∧ ∀ j, i ≤ j → j < kAlphabetSize → ¬ Good b cur j) := by
  have hlen : n.children.length = kAlphabetSize := hwf.arity n (List.getElem?_mem hn)
  intro rem
  induction rem with
  | zero =>
    intro i hi
    exact Or.inr ⟨rfl, fun j h1 h2 => by omega⟩
  | succ rem ih =>
    intro i hi
    obtain ⟨x, hx⟩ : ∃ x, n.children[i]? = some x := exists_getElem?_of_lt (by omega)
    have hnext : ¬ Good b cur i →
        ((∃ k, scan b n rem (i + 1) = .ok k ∧ i + 1 ≤ k ∧ k < kAlphabetSize ∧ Good b cur k ∧
          ∀ j, i + 1 ≤ j → j < k → ¬ Good b cur j) ∨
        (scan b n rem (i + 1) = .oob ∧
          ∀ j, i + 1 ≤ j → j < kAlphabetSize → ¬ Good b cur j)) →
        ((∃ k, scan b n rem (i + 1) = .ok k ∧ i ≤ k ∧ k < kAlphabetSize ∧ Good b cur k ∧
          ∀ j, i ≤ j → j < k → ¬ Good b cur j) ∨
        (scan b n rem (i + 1) = .oob ∧ ∀ j, i ≤ j → j < kAlphabetSize → ¬ Good b cur j)) := by
      intro hbad h
      rcases h with ⟨k, h1, h2, h3, h4, h5⟩ | ⟨h1, h2⟩
      · refine Or.inl ⟨k, h1, by omega, h3, h4, fun j hj1 hj2 => ?_⟩
        by_cases e : j = i
        · subst e; exact hbad
        · exact h5 j (by omega) hj2
      · refine Or.inr ⟨h1, fun j hj1 hj2 => ?_⟩
        by_cases e : j = i
        · subst e; exact hbad
        · exact h2 j (by omega) hj2
    cases x with
    | none =>
      have hc := child_eq_none_of_slot b cur i n hn hx
      have hbad : ¬ Good b cur i := by
        rintro ⟨c, h, _⟩
        rw [hc] at h
        cases h
      simp only [scan, hx]
      exact hnext hbad (ih (i + 1) (by omega))
    | some c =>
      have hc : child b cur i = some c := (child_some_iff b cur i c).2 ⟨n, hn, hx⟩
      obtain ⟨cn, hcn⟩ := exists_getElem?_of_lt (hwf.lt _ _ _ hc).2
      simp only [scan, hx, hcn]
      by_cases hm : cn.max_n = n.max_n
      · rw [if_neg (by simpa using hm)]
        refine Or.inl ⟨i, rfl, le_refl _, by omega, ⟨c, hc, ?_⟩, fun j h1 h2 => by omega⟩
        rw [mx_eq_of_getElem? hcn, mx_eq_of_getElem? hn, hm]
      · rw [if_pos hm]
        have hbad : ¬ Good b cur i := by
          rintro ⟨c', h, hmx⟩
          rw [hc] at h
          cases h
          rw [mx_eq_of_getElem? hcn, mx_eq_of_getElem? hn] at hmx
          exact hm hmx
        exact hnext hbad (ih (i + 1) (by omega))

theorem complete_append (b : List Node) (fuel : Nat) :
    ∀ (cur : Nat) (R : List Char),
      complete b fuel cur R =
        match complete b fuel cur [] with
        | .ok S => .ok (R ++ S)
        | .oob => .oob
        | .timeout => .timeout := by
  induction fuel with
  | zero => intro cur R; rfl
  | succ fuel ih =>
    intro cur R
    simp only [complete]
    cases b[cur]? with
    | none => rfl
    | some n =>
      simp only
      cases scan b n kAlphabetSize 0 with
      | oob => rfl
      | timeout => rfl
      | ok k =>
        simp only
        by_cases hk : SymbolFromNumber k = kTermSymbol
        · simp [hk]
        · simp only [if_neg hk]
          cases n.children[k]? with
          | none => rfl
          | some x =>
            cases x with
            | none => rfl
            | some c =>
              simp only
              rw [ih c (R ++ [SymbolFromNumber k]), ih c ([] ++ [SymbolFromNumber k])]
              cases complete b fuel c [] with
              | ok S => simp
              | oob => rfl
              | timeout => rfl

theorem lexLe_refl (p : List Nat) : lexLe p p = true := by
  induction p with
  | nil => rfl
  | cons a p ih => simp [lexLe, ih]

theorem lexLe_append_lt (p : List Nat) {a b : Nat} (h : a < b) (x y : List Nat) :
    lexLe (p ++ a :: x) (p ++ b :: y) = true := by
  induction p with
  | nil => simp [lexLe, h]
  | cons c p ih => simp [lexLe, ih]

theorem Sem.walk_mx {b : List Node} {ws : List (List Char)} (h : Sem b ws) {p : List Nat}
    {i : Nat} (hw : walk b 0 p = some i) : mx b i = best ws p := by
  have := h p
  simpa [view, hw] using this

theorem Sem.walk_of_pos {b : List Node} {ws : List (List Char)} (h : Sem b ws) {p : List Nat}
    (hp : 0 < best ws p) : ∃ i, walk b 0 p = some i := by
  have := h p
  unfold view at this
  cases hw : walk b 0 p with
  | some i => exact ⟨i, rfl⟩
  | none =>
    rw [hw] at this
    simp only at this
    omega

theorem best_attained {ws : List (List Char)} {p : List Nat} (h : 0 < best ws p) :
    ∃ w ∈ ws, p <+: tcode w ∧ ws.count w = best ws p := by
  unfold best at h ⊢
  obtain ⟨w, hw, hf, e⟩ := maxCountBy_attained ws _ ((maxCountBy_pos ws _).1 h)
  exact ⟨w, hw, by simpa using hf, e⟩

theorem count_le_best {ws : List (List Char)} {p : List Nat} {w : List Char} (hw : w ∈ ws)
    (hp : p <+: tcode w) : ws.count w ≤ best ws p :=
  (best_le ws p _).1 (le_refl _) w hw hp

theorem good_of_word {b : List Node} {ws : List (List Char)} (hsem : Sem b ws)
    {p : List Nat} {cur k : Nat} (hwalk : walk b 0 p = some cur) {w : List Char} (hw : w ∈ ws)
    (hp : p ++ [k] <+: tcode w) (hc : ws.count w = best ws p) : Good b cur k := by
  have h1 : ws.count w ≤ best ws (p ++ [k]) := count_le_best hw hp
  have h2 : best ws (p ++ [k]) ≤ best ws p := best_anti ws (List.prefix_append _ _)
  have h3 : 0 < ws.count w := List.count_pos_iff.2 hw
  obtain ⟨c, hwc⟩ := hsem.walk_of_pos (lt_of_lt_of_le h3 h1)
  obtain ⟨m, hm, hmk⟩ := (walk_snoc b 0 p k c).1 hwc
  rw [hwalk] at hm
  cases hm
  refine ⟨c, hmk, ?_⟩
  rw [hsem.walk_mx hwc, hsem.walk_mx hwalk]
  omega

theorem word_of_good {b : List Node} {ws : List (List Char)} (hsem : Sem b ws)
    {p : List Nat} {cur k : Nat} (hwalk : walk b 0 p = some cur) (hg : Good b cur k)
    (hpos : 0 < best ws p) :
    best ws (p ++ [k]) = best ws p ∧
      ∃ w ∈ ws, p ++ [k] <+: tcode w ∧ ws.count w = best ws p := by
  obtain ⟨c, hc, hmx⟩ := hg
  have hwc : walk b 0 (p ++ [k]) = some c := (walk_snoc b 0 p k c).2 ⟨cur, hwalk, hc⟩
  have e : best ws (p ++ [k]) = best ws p := by
    rw [← hsem.walk_mx hwc, ← hsem.walk_mx hwalk, hmx]
  refine ⟨e, ?_⟩
  obtain ⟨w, hw, hp, hcount⟩ := best_attained (by rw [e]; exact hpos)
  exact ⟨w, hw, hp, by rw [hcount, e]⟩

theorem next_symbol {P w : List Char} (hP : Lower P) (h : code P <+: tcode w) :
    ∃ k rest, tcode w = code P ++ k :: rest := by
  obtain ⟨r, hr⟩ := h
  cases r with
  | nil =>
    rw [List.append_nil] at hr
    exact absurd hr (code_ne_tcode hP w)
  | cons k rest => exact ⟨k, rest, hr.symm⟩

theorem code_append (P S : List Char) : code (P ++ S) = code P ++ code S := by
  simp [code]

theorem tcode_append (P S : List Char) : tcode (P ++ S) = code P ++ tcode S := by
  simp [tcode, code]

/-- The completion loop, started at the node of a string `P` that is a prefix of an
inserted word, ends and appends the letters `S` of the completion. -/
theorem complete_spec {b : List Node} {ws : List (List Char)} (hinv : Inv b)
    (hsem : Sem b ws) (hws : ∀ w ∈ ws, Lower w) (fuel : Nat) :
    ∀ {cur : Nat} {P : List Char}, Lower P → walk b 0 (code P) = some cur →
      0 < best ws (code P) → b.length ≤ fuel + cur →
      ∃ S, complete b fuel cur [] = .ok S ∧ Lower S ∧ (P ++ S) ∈ ws ∧
        ws.count (P ++ S) = best ws (code P) ∧
        ∀ w' ∈ ws, code P <+: tcode w' → ws.count w' = best ws (code P) →
          lexLe (tcode (P ++ S)) (tcode w') = true := by
  induction fuel with
  | zero =>
    intro cur P _ hwalk _ hfuel
    have := hinv.wf.walk_lt_length hinv.wf.root hwalk
    omega
  | succ fuel ih =>
    intro cur P hP hwalk hpos hfuel
    have hcur := hinv.wf.walk_lt_length hinv.wf.root hwalk
    obtain ⟨n, hn⟩ := exists_getElem?_of_lt hcur
    have hgood : ∀ w' ∈ ws, code P <+: tcode w' → ws.count w' = best ws (code P) →
        ∃ k' rest, tcode w' = code P ++ k' :: rest ∧ Good b cur k' := by
      intro w' hw' hp hc
      obtain ⟨k', rest, e⟩ := next_symbol hP hp
      exact ⟨k', rest, e, good_of_word hsem hwalk hw' ⟨rest, by simp [e]⟩ hc⟩
    obtain ⟨w0, hw0, hp0, hc0⟩ := best_attained hpos
    obtain ⟨k0, rest0, e0, hg0⟩ := hgood w0 hw0 hp0 hc0
    have hk0 : k0 < kAlphabetSize := by
      obtain ⟨c, hc, _⟩ := hg0
      exact hinv.wf.child_slot hc
    rcases scan_spec hinv.wf hn kAlphabetSize 0 (by simp) with
      ⟨k, hscan, _, hk, hg, hmin⟩ | ⟨_, hnone⟩
    swap
    · exact absurd hg0 (hnone k0 (Nat.zero_le _) hk0)
    obtain ⟨hbest, w1, hw1, hp1, hc1⟩ := word_of_good hsem hwalk hg hpos
    by_cases hterm : kAlphabetSize - 1 ≤ k
    · have hk26 : k = kAlphabetSize - 1 := by omega
      subst hk26
      have hPw : P = w1 := (tcode_prefix_tcode_iff hP (hws w1 hw1)).1 hp1
      subst hPw
      refine ⟨[], ?_, fun _ h => absurd h (List.not_mem_nil _), by simpa using hw1,
        by simpa using hc1, ?_⟩
      · simp only [complete, hn, hscan]
        rw [if_pos ((SymbolFromNumber_eq_term _).2 (le_refl _))]
      · intro w' hw' hp hc
        obtain ⟨k', rest, e, hg'⟩ := hgood w' hw' hp hc
        have hk' : k' < kAlphabetSize := by
          obtain ⟨c, hc, _⟩ := hg'
          exact hinv.wf.child_slot hc
        have hge : kAlphabetSize - 1 ≤ k' := by
          by_contra hlt
          exact hmin k' (Nat.zero_le _) (by omega) hg'
        have hk'' : k' = kAlphabetSize - 1 := by omega
        subst hk''
        have : tcode P <+: tcode w' := ⟨rest, by rw [e]; simp [tcode]⟩
        have := (tcode_prefix_tcode_iff hP (hws w' hw')).1 this
        subst this
        simpa using lexLe_refl _
    · have hk26 : k < kAlphabetSize - 1 := by omega
      obtain ⟨hin, hnum, hne⟩ := SymbolFromNumber_lower k hk26
      obtain ⟨c, hc, hmx⟩ := hg
      obtain ⟨n', hn', hslot⟩ := (child_some_iff b cur k c).1 hc
      rw [hn] at hn'
      cases hn'
      have hP' : Lower (P ++ [SymbolFromNumber k]) := by
        intro x hx
        rcases List.mem_append.1 hx with h | h
        · exact hP x h
        · simp only [List.mem_singleton] at h
          subst h
          exact hin
      have hcode' : code (P ++ [SymbolFromNumber k]) = code P ++ [k] := by
        rw [code_append]
        simp [code, hnum]
      have hwalk' : walk b 0 (code (P ++ [SymbolFromNumber k])) = some c := by
        rw [hcode']
        exact (walk_snoc b 0 _ k c).2 ⟨cur, hwalk, hc⟩
      have hlt := (hinv.wf.lt cur k c hc).1
      obtain ⟨S', hS', hlow', hmem', hcount', hmin'⟩ :=
        ih hP' hwalk' (by rw [hcode', hbest]; exact hpos) (by omega)
      rw [hcode', hbest] at hcount' hmin'
      refine ⟨SymbolFromNumber k :: S', ?_, ?_, ?_, ?_, ?_⟩
      · simp only [complete, hn, hscan, if_neg hne, hslot]
        rw [complete_append, hS']
        simp
      · intro x hx
        rcases List.mem_cons.1 hx with h | h
        · subst h; exact hin
        · exact hlow' x h
      · simpa using hmem'
      · simpa using hcount'
      · intro w' hw' hp hc'
        obtain ⟨k', rest, e, hg'⟩ := hgood w' hw' hp hc'
        have hle : k ≤ k' := by
          by_contra hlt'
          exact hmin k' (Nat.zero_le _) (by omega) hg'
        rcases Nat.lt_or_eq_of_le hle with hlt' | heq
        · rw [e, tcode_append]
          have : tcode (SymbolFromNumber k :: S') = k :: tcode S' := by
            simp [tcode, code, hnum]
          rw [this]
          exact lexLe_append_lt _ hlt' _ _
        · subst heq
          have := hmin' w' hw' ⟨rest, by rw [e]; simp⟩ hc'
          simpa using this

/-! ## Predictions on a built index -/

theorem FindNodeInBor_eq {v : Vocabulary} (hwf : WF v.bor_) {cs : List Char} (hcs : Lower cs)
    {s : Nat} (hs : s < v.bor_.length) :
    FindNodeInBor v cs (some s) = .ok (walk v.bor_ s (code cs)) := by
  unfold FindNodeInBor
  exact findLoop_eq hwf cs hs hcs.symbol_lt

theorem FindNodeInBor_none_eq {v : Vocabulary} (hwf : WF v.bor_) {cs : List Char}
    (hcs : Lower cs) : FindNodeInBor v cs none = .ok (walk v.bor_ 0 (code cs)) := by
  unfold FindNodeInBor
  exact findLoop_eq hwf cs hwf.root hcs.symbol_lt

theorem PredictWordAt_missing {v : Vocabulary} {cs : List Char} {s : Option Nat}
    (h : FindNodeInBor v cs s = .ok none) (fuel : Nat) :
    PredictWordAt fuel v cs s = .ok (cs, { v with prev_node_ := none }) := by
  simp [PredictWordAt, h]

theorem PredictWordAt_found {v : Vocabulary} {cs : List Char} {s : Option Nat} {c : Nat}
    (h : FindNodeInBor v cs s = .ok (some c)) {fuel : Nat} {S : List Char}
    (hS : complete v.bor_ fuel c [] = .ok S) :
    PredictWordAt fuel v cs s = .ok (cs ++ S, { v with prev_node_ := some c }) := by
  simp only [PredictWordAt, h]
  rw [complete_append, hS]

theorem Sem.pos_of_walk {b : List Node} {ws : List (List Char)} (hsem : Sem b ws)
    (hinv : Inv b) {p : List Nat} {i : Nat} (hp : p ≠ []) (hw : walk b 0 p = some i) :
    0 < best ws p := by
  rw [← hsem.walk_mx hw]
  have h1 := (hinv.wf.walk_le hw).2 hp
  exact hinv.pos i h1 (hinv.wf.walk_lt_length hinv.wf.root hw)

theorem best_code_pos_iff {ws : List (List Char)} (hws : ∀ w ∈ ws, Lower w) {P : List Char}
    (hP : Lower P) : 0 < best ws (code P) ↔ ∃ w ∈ ws, P <+: w := by
  unfold best
  rw [maxCountBy_pos]
  constructor
  · rintro ⟨w, hw, h⟩
    exact ⟨w, hw, (code_prefix_tcode_iff hP (hws w hw)).1 (by simpa using h)⟩
  · rintro ⟨w, hw, h⟩
    exact ⟨w, hw, by simpa using (code_prefix_tcode_iff hP (hws w hw)).2 h⟩

/-- A prediction for a string that is a prefix of an inserted word. -/
theorem PredictWord_found {v : Vocabulary} {ws : List (List Char)} (hinv : Inv v.bor_)
    (hsem : Sem v.bor_ ws) (hws : ∀ w ∈ ws, Lower w) {P : List Char} (hP : Lower P)
    (hex : ∃ w ∈ ws, P <+: w) {fuel : Nat} (hfuel : v.bor_.length ≤ fuel) :
    ∃ S c, walk v.bor_ 0 (code P) = some c ∧ complete v.bor_ fuel c [] = .ok S ∧
      PredictWord fuel v P = .ok (P ++ S, { v with prev_node_ := some c, prev_prefix_ := P }) ∧
      Lower S ∧ (P ++ S) ∈ ws ∧ ws.count (P ++ S) = maxCount ws P ∧
      ∀ w' ∈ ws, P <+: w' → ws.count w' = maxCount ws P →
        lexLe (tcode (P ++ S)) (tcode w') = true := by
  have hpos : 0 < best ws (code P) := (best_code_pos_iff hws hP).2 hex
  obtain ⟨c, hc⟩ := hsem.walk_of_pos hpos
  obtain ⟨S, hS, hlow, hmem, hcount, hmin⟩ :=
    complete_spec hinv hsem hws fuel hP hc hpos (by omega)
  have hfind : FindNodeInBor v P (some 0) = .ok (some c) := by
    rw [FindNodeInBor_eq hinv.wf hP hinv.wf.root, hc]
  refine ⟨S, c, hc, hS, ?_, hlow, hmem, ?_, ?_⟩
  · simp only [PredictWord, PredictWordAt_found hfind hS]
  · rw [hcount, maxCount_eq_best hws hP]
  · intro w' hw' hp hc'
    rw [maxCount_eq_best hws hP] at hc'
    exact hmin w' hw' ((code_prefix_tcode_iff hP (hws w' hw')).2 hp) hc'

/-- A prediction for a non-empty string that is not a prefix of an inserted word. -/
theorem PredictWord_missing {v : Vocabulary} {ws : List (List Char)} (hinv : Inv v.bor_)
    (hsem : Sem v.bor_ ws) (hws : ∀ w ∈ ws, Lower w) {P : List Char} (hP : Lower P)
    (hne : P ≠ []) (hex : ¬ ∃ w ∈ ws, P <+: w) (fuel : Nat) :
    walk v.bor_ 0 (code P) = none ∧
      PredictWord fuel v P = .ok (P, { v with prev_node_ := none, prev_prefix_ := P }) := by
  have hnone : walk v.bor_ 0 (code P) = none := by
    cases h : walk v.bor_ 0 (code P) with
    | none => rfl
    | some i =>
      exfalso
      have hcne : code P ≠ [] := by
        cases P with
        | nil => exact absurd rfl hne
        | cons c P => simp [code]
      exact hex ((best_code_pos_iff hws hP).1 (hsem.pos_of_walk hinv hcne h))
  have hfind : FindNodeInBor v P (some 0) = .ok none := by
    rw [FindNodeInBor_eq hinv.wf hP hinv.wf.root, hnone]
  exact ⟨hnone, by simp only [PredictWord, PredictWordAt_missing hfind]⟩

/-! ## The paths of a built index -/

theorem FindNodeInBor_eq_walk {v : Vocabulary} (hwf : WF v.bor_) {cs : List Char}
    (hcs : ∀ c ∈ cs, SymbolNumber c < kAlphabetSize) {s : Nat} (hs : s < v.bor_.length) :
    FindNodeInBor v cs (some s) = .ok (walk v.bor_ s (code cs)) := by
  unfold FindNodeInBor
  exact findLoop_eq hwf cs hs hcs

theorem FindNodeInBor_term {v : Vocabulary} (hwf : WF v.bor_) {w : List Char} (hw : Lower w) :
    FindNodeInBor v (w ++ [kTermSymbol]) (some 0) = .ok (walk v.bor_ 0 (tcode w)) := by
  rw [FindNodeInBor_eq_walk hwf ?_ hwf.root, code_append_term]
  intro c hc
  rcases List.mem_append.1 hc with h | h
  · exact hw.symbol_lt c h
  · simp only [List.mem_singleton] at h
    subst h
    exact SymbolNumber_term_lt

theorem childMax_le (b : List Node) (n : Node) (m : Nat) :
    childMax b n ≤ m ↔ ∀ (k c : Nat), n.children[k]? = some (some c) → mx b c ≤ m := by
  unfold childMax
  rw [foldr_max_le]
  constructor
  · intro h k c hk
    exact h _ (List.mem_map.2 ⟨some c, List.getElem?_mem hk, rfl⟩)
  · intro h x hx
    obtain ⟨o, ho, e⟩ := List.mem_map.1 hx
    subst e
    cases o with
    | none => exact Nat.zero_le _
    | some c =>
      obtain ⟨k, hk⟩ := List.mem_iff_getElem?.1 ho
      exact h k c hk

/-- A path that ends in the terminator is the path of an inserted word, and every other
path of the trie spells a string over the alphabet. -/
theorem path_cases {b : List Node} {ws : List (List Char)} (hinv : Inv b) (hsem : Sem b ws)
    (hws : ∀ w ∈ ws, Lower w) {q : List Nat} {i : Nat} (hq : walk b 0 q = some i) :
    (∃ w ∈ ws, q = tcode w) ∨ ∃ P, Lower P ∧ q = code P := by
  by_cases h0 : q = []
  · exact Or.inr ⟨[], fun _ h => absurd h (List.not_mem_nil _), by simp [h0, code]⟩
  · obtain ⟨w, hw, hp, _⟩ := best_attained (hsem.pos_of_walk hinv h0 hq)
    rcases prefix_tcode_cases (hws w hw) hp with h | ⟨P, hP, _, e⟩
    · exact Or.inl ⟨w, hw, h⟩
    · exact Or.inr ⟨P, hP, e⟩

theorem snoc_term_eq_tcode {w : List Char} (hw : Lower w) {q : List Nat} {k : Nat}
    (h : q ++ [k] <+: tcode w) (hk : k = kAlphabetSize - 1) : q ++ [k] = tcode w := by
  subst hk
  have h' : q ++ [kAlphabetSize - 1] <+: code w ++ [kAlphabetSize - 1] := h
  rw [List.prefix_concat_iff] at h'
  rcases h' with h' | h'
  · exact h'
  · exfalso
    have : kAlphabetSize - 1 ∈ code w := h'.subset (by simp)
    have := code_lt hw _ this
    omega

/-- A node that is not a terminator child is reached by the path of a string over the
alphabet. -/
theorem letter_path_of_not_term {b : List Node} {ws : List (List Char)} (hinv : Inv b)
    (hsem : Sem b ws) (hws : ∀ w ∈ ws, Lower w) {i : Nat} (hi : i < b.length)
    (hnt : ¬ IsTermNode b i) : ∃ P, Lower P ∧ walk b 0 (code P) = some i := by
  obtain ⟨q, hq⟩ := hinv.reach i hi
  rcases path_cases hinv hsem hws hq with ⟨w, _, e⟩ | ⟨P, hP, e⟩
  · exfalso
    subst e
    obtain ⟨m, _, hm⟩ := (walk_snoc b 0 (code w) _ i).1 hq
    exact hnt ⟨m, hm⟩
  · subst e
    exact ⟨P, hP, hq⟩

/-- A terminator child is reached by the path of an inserted word. -/
theorem term_path {b : List Node} {ws : List (List Char)} (hinv : Inv b)
    (hsem : Sem b ws) (hws : ∀ w ∈ ws, Lower w) {t : Nat} (ht : IsTermNode b t) :
    ∃ w ∈ ws, walk b 0 (tcode w) = some t := by
  obtain ⟨j, hj⟩ := ht
  have hjl : j < b.length := by
    have := (hinv.wf.lt j _ t hj).1
    have := (hinv.wf.lt j _ t hj).2
    omega
  obtain ⟨q, hq⟩ := hinv.reach j hjl
  have hqt : walk b 0 (q ++ [kAlphabetSize - 1]) = some t := (walk_snoc b 0 q _ t).2 ⟨j, hq, hj⟩
  obtain ⟨w, hw, hp, _⟩ := best_attained (hsem.pos_of_walk hinv (by simp) hqt)
  have e := snoc_term_eq_tcode (hws w hw) hp rfl
  exact ⟨w, hw, by rw [← e]; exact hqt⟩

/-! ## The prediction is determined by the inserted words -/

theorem lexLe_antisymm : ∀ (p q : List Nat), lexLe p q = true → lexLe q p = true → p = q := by
  intro p
  induction p with
  | nil =>
    intro q _ h
    cases q with
    | nil => rfl
    | cons b q => simp [lexLe] at h
  | cons a p ih =>
    intro q h1 h2
    cases q with
    | nil => simp [lexLe] at h1
    | cons b q =>
      simp only [lexLe, Bool.or_eq_true, Bool.and_eq_true, decide_eq_true_eq] at h1 h2
      rcases h1 with h1 | ⟨e1, h1⟩
      · rcases h2 with h2 | ⟨e2, _⟩
        · omega
        · omega
      · rcases h2 with h2 | ⟨_, h2⟩
        · omega
        · rw [e1, ih q h1 h2]

theorem lexLe_append_cancel (p x y : List Nat) : lexLe (p ++ x) (p ++ y) = lexLe x y := by
  induction p with
  | nil => rfl
  | cons a p ih => simp [lexLe, ih]

theorem maxCount_le (ws : List (List Char)) (P : List Char) (m : Nat) :
    maxCount ws P ≤ m ↔ ∀ w ∈ ws, P <+: w → ws.count w ≤ m := by
  unfold maxCount
  rw [maxCountBy_le]
  simp

theorem count_le_maxCount {ws : List (List Char)} {P w : List Char} (hw : w ∈ ws)
    (hp : P <+: w) : ws.count w ≤ maxCount ws P :=
  (maxCount_le ws P _).1 (le_refl _) w hw hp

theorem maxCount_anti (ws : List (List Char)) {P Q : List Char} (h : P <+: Q) :
    maxCount ws Q ≤ maxCount ws P := by
  rw [maxCount_le]
  intro w hw hq
  exact count_le_maxCount hw (h.trans hq)

theorem maxCount_attained {ws : List (List Char)} {P : List Char}
    (h : ∃ w ∈ ws, P <+: w) : ∃ w ∈ ws, P <+: w ∧ ws.count w = maxCount ws P := by
  obtain ⟨w0, hw0, hp0⟩ := h
  obtain ⟨w, hw, hf, e⟩ := maxCountBy_attained ws (fun w => decide (P <+: w))
    ⟨w0, hw0, by simpa using hp0⟩
  exact ⟨w, hw, by simpa using hf, e⟩

theorem perm_count {ws ws' : List (List Char)} (h : ws.Perm ws') (w : List Char) :
    ws.count w = ws'.count w :=
  h.countP_eq _

theorem maxCount_perm {ws ws' : List (List Char)} (h : ws.Perm ws') (P : List Char) :
    maxCount ws P = maxCount ws' P := by
  apply eq_of_forall_ge_iff
  intro m
  rw [maxCount_le, maxCount_le]
  constructor
  · intro hm w hw hp
    rw [← perm_count h]
    exact hm w (h.mem_iff.2 hw) hp
  · intro hm w hw hp
    rw [perm_count h]
    exact hm w (h.mem_iff.1 hw) hp

/-- There is at most one string that the specification allows as the prediction. -/
theorem IsPrediction.unique {ws : List (List Char)} (hws : ∀ w ∈ ws, Lower w)
    {P W W' : List Char} (h : IsPrediction ws P W) (h' : IsPrediction ws P W') : W = W' := by
  obtain ⟨hm, hp, hc, hmin⟩ := h
  obtain ⟨hm', hp', hc', hmin'⟩ := h'
  have e := lexLe_antisymm _ _ (hmin W' hm' hp' hc') (hmin' W hm hp hc)
  exact (tcode_prefix_tcode_iff (hws W hm) (hws W' hm')).1 (by rw [e])

/-- The prediction for `P` is also the prediction for every string between `P` and
itself. -/
theorem IsPrediction.mid {ws : List (List Char)} {P Q W : List Char}
    (h : IsPrediction ws P W) (hPQ : P <+: Q) (hQW : Q <+: W) : IsPrediction ws Q W := by
  obtain ⟨hm, hp, hc, hmin⟩ := h
  have e : maxCount ws Q = maxCount ws P := by
    apply le_antisymm (maxCount_anti ws hPQ)
    rw [← hc]
    exact count_le_maxCount hm hQW
  refine ⟨hm, hQW, by rw [hc, e], fun w hw hq hcw => ?_⟩
  exact hmin w hw (hPQ.trans hq) (by rw [hcw, e])

theorem IsPrediction.perm {ws ws' : List (List Char)} (hperm : ws.Perm ws')
    {P W : List Char} (h : IsPrediction ws P W) : IsPrediction ws' P W := by
  obtain ⟨hm, hp, hc, hmin⟩ := h
  refine ⟨hperm.mem_iff.1 hm, hp, ?_, fun w hw hpw hcw => ?_⟩
  · rw [← perm_count hperm, ← maxCount_perm hperm, hc]
  · refine hmin w (hperm.mem_iff.2 hw) hpw ?_
    rw [perm_count hperm, maxCount_perm hperm, hcw]

/-- What `PredictWord` returns for a prefix of an inserted word is the prediction of
the specification. -/
theorem PredictWord_isPrediction {v : Vocabulary} {ws : List (List Char)}
    (hinv : Inv v.bor_) (hsem : Sem v.bor_ ws) (hws : ∀ w ∈ ws, Lower w) {P : List Char}
    (hP : Lower P) (hex : ∃ w ∈ ws, P <+: w) {fuel : Nat} (hfuel : v.bor_.length ≤ fuel) :
    ∃ W c, IsPrediction ws P W ∧ walk v.bor_ 0 (code P) = some c ∧
      PredictWord fuel v P = .ok (W, { v with prev_node_ := some c, prev_prefix_ := P }) := by
  obtain ⟨S, c, hc, _, hpred, _, hmem, hcount, hmin⟩ :=
    PredictWord_found hinv hsem hws hP hex hfuel
  exact ⟨P ++ S, c, ⟨hmem, List.prefix_append _ _, hcount, hmin⟩, hc, hpred⟩

/-! ## The claims of the specification -/

/-- Claim C1 (most-frequent completion): on the index built from words over `'a'..'z'`,
for a string `P` over `'a'..'z'` that is a prefix of an inserted word (the empty string
included), `PredictWord(P)` returns, whenever the fuel is at least the number of nodes,
a string `W` that was inserted, has `P` as a prefix, and whose number of insertions is
the greatest among the inserted words that have `P` as a prefix. -/
theorem c1_most_frequent_completion (ws : List (List Char)) (P : List Char)
    (hws : ∀ w ∈ ws, Lower w) (hP : Lower P) (hex : ∃ w ∈ ws, P <+: w) :
    ∃ v, build ws = .ok v ∧ ∀ fuel, v.bor_.length ≤ fuel →
      ∃ W v', PredictWord fuel v P = .ok (W, v') ∧ W ∈ ws ∧ P <+: W ∧
        ws.count W = maxCount ws P ∧ ∀ w ∈ ws, P <+: w → ws.count w ≤ ws.count W := by
  obtain ⟨v, hv, hinv, hsem, _, _⟩ := build_inv ws hws
  refine ⟨v, hv, fun fuel hfuel => ?_⟩
  obtain ⟨S, c, _, _, hpred, _, hmem, hcount, _⟩ :=
    PredictWord_found hinv hsem hws hP hex hfuel
  refine ⟨P ++ S, _, hpred, hmem, List.prefix_append _ _, hcount, ?_⟩
  intro w hw hp
  rw [hcount]
  exact (maxCountBy_le ws _ _).1 (le_refl _) w hw (by simpa using hp)

/-- Claim C1, the example of the specification: after "cat" three times, "car" five
times and "cart" once, the hypotheses hold for the prefix "ca". -/
theorem c1_most_frequent_completion_witness :
    (∀ w ∈ wordsCatCarCart, Lower w) ∧ Lower "ca".toList ∧
      (∃ w ∈ wordsCatCarCart, "ca".toList <+: w) ∧
      ∃ v, build wordsCatCarCart = .ok v ∧ ∀ fuel, v.bor_.length ≤ fuel →
        ∃ W v', PredictWord fuel v "ca".toList = .ok (W, v') ∧ W ∈ wordsCatCarCart ∧
          "ca".toList <+: W ∧ wordsCatCarCart.count W = maxCount wordsCatCarCart "ca".toList ∧
          ∀ w ∈ wordsCatCarCart, "ca".toList <+: w →
            wordsCatCarCart.count w ≤ wordsCatCarCart.count W :=
  ⟨by decide, by decide, by decide,
    c1_most_frequent_completion wordsCatCarCart "ca".toList (by decide) (by decide) (by decide)⟩

/-- The example of the specification, evaluated: after "cat" three times, "car" five
times and "cart" once, `PredictWord("ca")` returns "car". -/
theorem predict_ca_is_car : predictOn wordsCatCarCart 13 "ca".toList = .ok "car".toList := by
  decide

/-- Claim C2 (tie-break order): on the index built from words over `'a'..'z'`, for a
string `P` that is a prefix of an inserted word, `PredictWord(P)` returns an inserted
word `W` with prefix `P` and the greatest number of insertions whose path (its symbol
numbers followed by the number of the terminator) is lexicographically least among the
paths of all such words. -/
theorem c2_tie_break_order (ws : List (List Char)) (P : List Char)
    (hws : ∀ w ∈ ws, Lower w) (hP : Lower P) (hex : ∃ w ∈ ws, P <+: w) :
    ∃ v, build ws = .ok v ∧ ∀ fuel, v.bor_.length ≤ fuel →
      ∃ W v', PredictWord fuel v P = .ok (W, v') ∧ W ∈ ws ∧ P <+: W ∧
        ws.count W = maxCount ws P ∧
        ∀ w ∈ ws, P <+: w → ws.count w = maxCount ws P → lexLe (tcode W) (tcode w) = true := by
  obtain ⟨v, hv, hinv, hsem, _, _⟩ := build_inv ws hws
  refine ⟨v, hv, fun fuel hfuel => ?_⟩
  obtain ⟨S, c, _, _, hpred, _, hmem, hcount, hmin⟩ :=
    PredictWord_found hinv hsem hws hP hex hfuel
  exact ⟨P ++ S, _, hpred, hmem, List.prefix_append _ _, hcount, hmin⟩

/-- Claim C2, the example of the specification: after "ab" twice and "ac" twice, the
hypotheses hold for the prefix "a". -/
theorem c2_tie_break_order_witness :
    (∀ w ∈ wordsAbAc, Lower w) ∧ Lower "a".toList ∧ (∃ w ∈ wordsAbAc, "a".toList <+: w) ∧
      ∃ v, build wordsAbAc = .ok v ∧ ∀ fuel, v.bor_.length ≤ fuel →
        ∃ W v', PredictWord fuel v "a".toList = .ok (W, v') ∧ W ∈ wordsAbAc ∧
          "a".toList <+: W ∧ wordsAbAc.count W = maxCount wordsAbAc "a".toList ∧
          ∀ w ∈ wordsAbAc, "a".toList <+: w →
            wordsAbAc.count w = maxCount wordsAbAc "a".toList →
            lexLe (tcode W) (tcode w) = true :=
  ⟨by decide, by decide, by decide,
    c2_tie_break_order wordsAbAc "a".toList (by decide) (by decide) (by decide)⟩

/-- The tie-break example, evaluated: after "ab" twice and "ac" twice, `PredictWord("a")`
returns "ab". -/
theorem predict_a_is_ab : predictOn wordsAbAc 13 "a".toList = .ok "ab".toList := by
  decide

/-- Claim C4 (incremental equivalence): on the index built from words over `'a'..'z'`,
for strings `P` and `S` over `'a'..'z'` such that `P ++ S` is a prefix of an inserted
word, the call `PredictWord(P)` followed by `PredictPrevWordWithNewSymbols(S)` makes
the second call return the string that `PredictWord(P ++ S)` returns on the same index. -/
theorem c4_incremental_equivalence (ws : List (List Char)) (P S : List Char)
    (hws : ∀ w ∈ ws, Lower w) (hP : Lower P) (hS : Lower S)
    (hex : ∃ w ∈ ws, P ++ S <+: w) :
    ∃ v, build ws = .ok v ∧ ∀ fuel, v.bor_.length ≤ fuel →
      ∃ r1 v1 r v2 v3, PredictWord fuel v P = .ok (r1, v1) ∧
        PredictPrevWordWithNewSymbols fuel v1 S = .ok (r, v2) ∧
        PredictWord fuel v (P ++ S) = .ok (r, v3) := by
  obtain ⟨v, hv, hinv, hsem, _, _⟩ := build_inv ws hws
  refine ⟨v, hv, fun fuel hfuel => ?_⟩
  have hPS : Lower (P ++ S) := by
    intro c hc
    rcases List.mem_append.1 hc with h | h
    · exact hP c h
    · exact hS c h
  have hexP : ∃ w ∈ ws, P <+: w := by
    obtain ⟨w, hw, h⟩ := hex
    exact ⟨w, hw, (List.prefix_append P S).trans h⟩
  obtain ⟨S1, c, hc, _, hpred1, _⟩ := PredictWord_found hinv hsem hws hP hexP hfuel
  obtain ⟨S2, c2, hc2, hS2, hpred2, _⟩ := PredictWord_found hinv hsem hws hPS hex hfuel
  rw [code_append] at hc2
  obtain ⟨m, hm, hmc⟩ := walk_split hc2
  rw [hc] at hm
  cases hm
  have hfind : FindNodeInBor { v with prev_node_ := some c, prev_prefix_ := P } S (some c)
      = .ok (some c2) := by
    have h := FindNodeInBor_eq (v := { v with prev_node_ := some c, prev_prefix_ := P })
      hinv.wf hS (hinv.wf.walk_lt_length hinv.wf.root hc)
    rw [h]
    exact congrArg _ hmc
  refine ⟨_, _, (P ++ S) ++ S2, ⟨v.bor_, S, some c2⟩, _, hpred1, ?_, hpred2⟩
  simp only [PredictPrevWordWithNewSymbols]
  rw [PredictWordAt_found hfind hS2]
  simp

/-- Claim C4 at the prefix "c" continued by "a", after "cat", "car" and "cart". -/
theorem c4_incremental_equivalence_witness :
    (∀ w ∈ wordsCatCarCart, Lower w) ∧ Lower "c".toList ∧ Lower "a".toList ∧
      (∃ w ∈ wordsCatCarCart, "c".toList ++ "a".toList <+: w) ∧
      ∃ v, build wordsCatCarCart = .ok v ∧ ∀ fuel, v.bor_.length ≤ fuel →
        ∃ r1 v1 r v2 v3, PredictWord fuel v "c".toList = .ok (r1, v1) ∧
          PredictPrevWordWithNewSymbols fuel v1 "a".toList = .ok (r, v2) ∧
          PredictWord fuel v ("c".toList ++ "a".toList) = .ok (r, v3) :=
  ⟨by decide, by decide, by decide, by decide,
    c4_incremental_equivalence wordsCatCarCart "c".toList "a".toList (by decide) (by decide)
      (by decide) (by decide)⟩

/-- Claim C5 is broken by the code: after "car" was inserted, `PredictWord("x")` does not
find "x" and returns "x" with a null cursor node; the following
`PredictPrevWordWithNewSymbols("c")` then starts again at the root, returns "xcar"
instead of "xc" and leaves a cursor node that is not null. -/
theorem c5_not_found_restarts_at_root :
    session2 ["car".toList] 5 "x".toList "c".toList
      = .ok ("x".toList, none, "xcar".toList, some 1, "c".toList) := by
  decide

/-- Claim C6 is broken by the code: after "abc" was inserted, the calls
`PredictWord("a")` and `PredictPrevWordWithNewSymbols("b")` leave the cursor prefix "b"
(not "ab") at the node of "ab", so that a further `PredictPrevWordWithNewSymbols("c")`
returns "bc" whereas `PredictWord("abc")` returns "abc". -/
theorem c6_chained_prefix_lost :
    session2 ["abc".toList] 5 "a".toList "b".toList
        = .ok ("abc".toList, some 1, "abc".toList, some 2, "b".toList) ∧
      session3 ["abc".toList] 5 "a".toList "b".toList "c".toList = .ok "bc".toList ∧
      predictOn ["abc".toList] 5 "abc".toList = .ok "abc".toList := by
  decide

/-- Claim C7 (invariant I1): after the insertion of any words over `'a'..'z'`, the
counter `max_n` of every node that is not a terminator child equals the greatest
counter among its existing children, and it is `0` only for a root without children. -/
theorem c7_frequency_propagation (ws : List (List Char)) (hws : ∀ w ∈ ws, Lower w) :
    ∃ v, build ws = .ok v ∧ ∀ (i : Nat) (n : Node), v.bor_[i]? = some n →
      ¬ IsTermNode v.bor_ i →
      n.max_n = childMax v.bor_ n ∧
        (n.max_n = 0 → i = 0 ∧ ∀ k, child v.bor_ i k = none) := by
  obtain ⟨v, hv, hinv, hsem, _, _⟩ := build_inv ws hws
  refine ⟨v, hv, fun i n hn hnt => ?_⟩
  have hi : i < v.bor_.length := getElem?_lt_of_some hn
  obtain ⟨P, hP, hwalk⟩ := letter_path_of_not_term hinv hsem hws hi hnt
  have hmx : mx v.bor_ i = n.max_n := mx_eq_of_getElem? hn
  have hchild : ∀ k c, n.children[k]? = some (some c) → child v.bor_ i k = some c :=
    fun k c h => (child_some_iff v.bor_ i k c).2 ⟨n, hn, h⟩
  constructor
  · apply le_antisymm
    · by_cases hpos : 0 < best ws (code P)
      · obtain ⟨w0, hw0, hp0, hc0⟩ := best_attained hpos
        obtain ⟨k0, rest, e⟩ := next_symbol hP hp0
        obtain ⟨c, hc, hcm⟩ :=
          good_of_word (k := k0) hsem hwalk hw0 ⟨rest, by simp [e]⟩ hc0
        obtain ⟨n', hn', hslot⟩ := (child_some_iff v.bor_ i k0 c).1 hc
        rw [hn] at hn'
        cases hn'
        have := (childMax_le v.bor_ n _).1 (le_refl _) k0 c hslot
        rw [hcm, hmx] at this
        exact this
      · have : n.max_n = 0 := by
          rw [← hmx, hsem.walk_mx hwalk]
          omega
        rw [this]
        exact Nat.zero_le _
    · rw [childMax_le]
      intro k c h
      rw [← hmx]
      exact hinv.mono i k c (hchild k c h)
  · intro h0
    rw [← hmx] at h0
    have hi0 : i = 0 := by
      by_contra hne
      have := hinv.pos i (by omega) hi
      omega
    refine ⟨hi0, fun k => ?_⟩
    cases hc : child v.bor_ i k with
    | none => rfl
    | some c =>
      exfalso
      have h1 := hinv.wf.lt i k c hc
      have h2 := hinv.pos c (by omega) h1.2
      have h3 := hinv.mono i k c hc
      omega

/-- Claim C7 after "cat" three times, "car" five times and "cart" once. -/
theorem c7_frequency_propagation_witness :
    (∀ w ∈ wordsCatCarCart, Lower w) ∧
      ∃ v, build wordsCatCarCart = .ok v ∧ ∀ (i : Nat) (n : Node), v.bor_[i]? = some n →
        ¬ IsTermNode v.bor_ i →
        n.max_n = childMax v.bor_ n ∧
          (n.max_n = 0 → i = 0 ∧ ∀ k, child v.bor_ i k = none) :=
  ⟨by decide, c7_frequency_propagation wordsCatCarCart (by decide)⟩

/-- Claim C8 (meaning of the counter): after the insertion of any words over
`'a'..'z'`, the node found for a string `P` over `'a'..'z'` carries in `max_n` the
greatest number of insertions among the inserted words that have `P` as a prefix; the
counter of the root is the number of insertions of the most frequent word. -/
theorem c8_best_count_meaning (ws : List (List Char)) (hws : ∀ w ∈ ws, Lower w) :
    ∃ v, build ws = .ok v ∧
      (∀ P i, Lower P → FindNodeInBor v P (some 0) = .ok (some i) →
        ∃ n, v.bor_[i]? = some n ∧ n.max_n = maxCount ws P) ∧
      (∃ r, v.bor_[0]? = some r ∧ r.max_n = maxCount ws [] ∧
        ∀ w ∈ ws, ws.count w ≤ r.max_n) := by
  obtain ⟨v, hv, hinv, hsem, _, _⟩ := build_inv ws hws
  have key : ∀ P i, Lower P → FindNodeInBor v P (some 0) = .ok (some i) →
      ∃ n, v.bor_[i]? = some n ∧ n.max_n = maxCount ws P := by
    intro P i hP hfind
    rw [FindNodeInBor_eq hinv.wf hP hinv.wf.root] at hfind
    have hwalk : walk v.bor_ 0 (code P) = some i := Res.ok.inj hfind
    obtain ⟨n, hn⟩ := exists_getElem?_of_lt (hinv.wf.walk_lt_length hinv.wf.root hwalk)
    refine ⟨n, hn, ?_⟩
    rw [← mx_eq_of_getElem? hn, hsem.walk_mx hwalk, maxCount_eq_best hws hP]
  refine ⟨v, hv, key, ?_⟩
  obtain ⟨r, hr, hmax⟩ := key [] 0 (fun _ h => absurd h (List.not_mem_nil _)) rfl
  refine ⟨r, hr, hmax, fun w hw => ?_⟩
  rw [hmax]
  exact (maxCountBy_le ws _ _).1 (le_refl _) w hw (by simp)

/-- Claim C8 after "cat" three times, "car" five times and "cart" once. -/
theorem c8_best_count_meaning_witness :
    (∀ w ∈ wordsCatCarCart, Lower w) ∧
      ∃ v, build wordsCatCarCart = .ok v ∧
        (∀ P i, Lower P → FindNodeInBor v P (some 0) = .ok (some i) →
          ∃ n, v.bor_[i]? = some n ∧ n.max_n = maxCount wordsCatCarCart P) ∧
        (∃ r, v.bor_[0]? = some r ∧ r.max_n = maxCount wordsCatCarCart [] ∧
          ∀ w ∈ wordsCatCarCart, wordsCatCarCart.count w ≤ r.max_n) :=
  ⟨by decide, c8_best_count_meaning wordsCatCarCart (by decide)⟩

/-- Claim C9 (exact word counters): after the insertion of any words `ws` over
`'a'..'z'`, for every word `w` over `'a'..'z'` the terminator child at the end of the
path of `w` exists exactly when `w` occurs in `ws`, and its `max_n` is then the number
of occurrences of `w` in `ws`; a further `AddWord(w)` succeeds, raises the counter of
the terminator child of `w` by exactly one and leaves the counter of every other
terminator child unchanged. -/
theorem c9_exact_word_counters (ws : List (List Char)) (w : List Char)
    (hws : ∀ x ∈ ws, Lower x) (hw : Lower w) :
    ∃ v, build ws = .ok v ∧
      (0 < ws.count w → ∃ t n, FindNodeInBor v (w ++ [kTermSymbol]) (some 0) = .ok (some t) ∧
        v.bor_[t]? = some n ∧ n.max_n = ws.count w) ∧
      (ws.count w = 0 → FindNodeInBor v (w ++ [kTermSymbol]) (some 0) = .ok none) ∧
      ∃ v' t n', AddWord v w = .ok v' ∧
        FindNodeInBor v' (w ++ [kTermSymbol]) (some 0) = .ok (some t) ∧
        v'.bor_[t]? = some n' ∧ n'.max_n = ws.count w + 1 ∧
        mx v'.bor_ t = mx v.bor_ t + 1 ∧
        ∀ t', IsTermNode v'.bor_ t' → t' ≠ t → mx v'.bor_ t' = mx v.bor_ t' := by
  obtain ⟨v, hv, hinv, hsem, _, _⟩ := build_inv ws hws
  have hbest : best ws (tcode w) = ws.count w := best_tcode hws hw
  refine ⟨v, hv, ?_, ?_, ?_⟩
  · intro hpos
    obtain ⟨t, ht⟩ := hsem.walk_of_pos (by rw [hbest]; exact hpos)
    obtain ⟨n, hn⟩ := exists_getElem?_of_lt (hinv.wf.walk_lt_length hinv.wf.root ht)
    refine ⟨t, n, by rw [FindNodeInBor_term hinv.wf hw, ht], hn, ?_⟩
    rw [← mx_eq_of_getElem? hn, hsem.walk_mx ht, hbest]
  · intro h0
    rw [FindNodeInBor_term hinv.wf hw]
    cases ht : walk v.bor_ 0 (tcode w) with
    | none => rfl
    | some t =>
      have := hsem.pos_of_walk hinv (tcode_ne_nil w) ht
      omega
  · obtain ⟨b', t, hadd, hinv', _, hwalk, hpres, _, _, hon, hoff⟩ :=
      AddWord_struct hinv w hw.symbol_lt
    have hsem' : Sem b' (ws ++ [w]) := AddWord_sem hinv hsem hws hw hadd
    have hws' : ∀ x ∈ ws ++ [w], Lower x := by
      intro x hx
      rcases List.mem_append.1 hx with h | h
      · exact hws x h
      · simp only [List.mem_singleton] at h
        subst h
        exact hw
    obtain ⟨n', hn'⟩ := exists_getElem?_of_lt (hinv'.wf.walk_lt_length hinv'.wf.root hwalk)
    have hton : OnPath b' (tcode w) t := ⟨tcode w, [], by simp, hwalk⟩
    refine ⟨{ v with bor_ := b' }, t, n', hadd, ?_, hn', ?_, ?_, ?_⟩
    · rw [FindNodeInBor_term (v := { v with bor_ := b' }) hinv'.wf hw, hwalk]
    · rw [← mx_eq_of_getElem? hn', hsem'.walk_mx hwalk, best_tcode hws' hw]
      simp
    · rw [hon t hton]
      omega
    · intro t' hterm hne
      apply hoff
      rintro ⟨q, r, hq, hwq⟩
      obtain ⟨w', _, hw't⟩ := term_path hinv' hsem' hws' hterm
      have e := hinv'.wf.walk_inj hwq hw't
      subst e
      have hp : code w' ++ [kAlphabetSize - 1] <+: tcode w := ⟨r, hq.symm⟩
      have e2 := snoc_term_eq_tcode hw hp rfl
      have e3 : tcode w' = tcode w := e2
      rw [e3, hwalk] at hw't
      cases hw't
      exact hne rfl

/-- Claim C9 for the word "car" after "cat" three times, "car" five times and "cart"
once. -/
theorem c9_exact_word_counters_witness :
    (∀ x ∈ wordsCatCarCart, Lower x) ∧ Lower "car".toList ∧
      ∃ v, build wordsCatCarCart = .ok v ∧
        (0 < wordsCatCarCart.count "car".toList →
          ∃ t n, FindNodeInBor v ("car".toList ++ [kTermSymbol]) (some 0) = .ok (some t) ∧
            v.bor_[t]? = some n ∧ n.max_n = wordsCatCarCart.count "car".toList) ∧
        (wordsCatCarCart.count "car".toList = 0 →
          FindNodeInBor v ("car".toList ++ [kTermSymbol]) (some 0) = .ok none) ∧
        ∃ v' t n', AddWord v "car".toList = .ok v' ∧
          FindNodeInBor v' ("car".toList ++ [kTermSymbol]) (some 0) = .ok (some t) ∧
          v'.bor_[t]? = some n' ∧ n'.max_n = wordsCatCarCart.count "car".toList + 1 ∧
          mx v'.bor_ t = mx v.bor_ t + 1 ∧
          ∀ t', IsTermNode v'.bor_ t' → t' ≠ t → mx v'.bor_ t' = mx v.bor_ t' :=
  ⟨by decide, by decide,
    c9_exact_word_counters wordsCatCarCart "car".toList (by decide) (by decide)⟩

/-- Claim C10 (invariant I2): after the insertion of any words over `'a'..'z'`, the node
found for a string `P` over `'a'..'z'` has a terminator child if and only if `P` is one
of the inserted words, and a terminator child has no children. -/
theorem c10_structural_invariant (ws : List (List Char)) (hws : ∀ w ∈ ws, Lower w) :
    ∃ v, build ws = .ok v ∧
      (∀ P i, Lower P → FindNodeInBor v P (some 0) = .ok (some i) →
        ((∃ t, child v.bor_ i (SymbolNumber kTermSymbol) = some t) ↔ P ∈ ws)) ∧
      ∀ t, IsTermNode v.bor_ t → ∀ k, child v.bor_ t k = none := by
  obtain ⟨v, hv, hinv, hsem, _, _⟩ := build_inv ws hws
  refine ⟨v, hv, ?_, ?_⟩
  · intro P i hP hfind
    rw [FindNodeInBor_eq hinv.wf hP hinv.wf.root] at hfind
    have hwalk : walk v.bor_ 0 (code P) = some i := Res.ok.inj hfind
    rw [SymbolNumber_term]
    constructor
    · rintro ⟨t, ht⟩
      have hwt : walk v.bor_ 0 (tcode P) = some t := (walk_snoc _ 0 _ _ t).2 ⟨i, hwalk, ht⟩
      have := hsem.pos_of_walk hinv (tcode_ne_nil P) hwt
      rw [best_tcode hws hP] at this
      exact List.count_pos_iff.1 this
    · intro hmem
      have hpos : 0 < best ws (tcode P) := by
        rw [best_tcode hws hP]
        exact List.count_pos_iff.2 hmem
      obtain ⟨t, ht⟩ := hsem.walk_of_pos hpos
      obtain ⟨m, hm, hmt⟩ := (walk_snoc _ 0 _ _ t).1 ht
      rw [hwalk] at hm
      cases hm
      exact ⟨t, hmt⟩
  · intro t hterm k
    cases hc : child v.bor_ t k with
    | none => rfl
    | some c =>
      exfalso
      obtain ⟨w, hw, hwt⟩ := term_path hinv hsem hws hterm
      have hwc : walk v.bor_ 0 (tcode w ++ [k]) = some c := (walk_snoc _ 0 _ k c).2 ⟨t, hwt, hc⟩
      obtain ⟨w', hw', hp, _⟩ := best_attained (hsem.pos_of_walk hinv (by simp) hwc)
      have h1 : tcode w <+: tcode w' := (List.prefix_append _ _).trans hp
      have e := (tcode_prefix_tcode_iff (hws w hw) (hws w' hw')).1 h1
      subst e
      have := hp.length_le
      simp at this

/-- Claim C10 after "cat" three times, "car" five times and "cart" once. -/
theorem c10_structural_invariant_witness :
    (∀ w ∈ wordsCatCarCart, Lower w) ∧
      ∃ v, build wordsCatCarCart = .ok v ∧
        (∀ P i, Lower P → FindNodeInBor v P (some 0) = .ok (some i) →
          ((∃ t, child v.bor_ i (SymbolNumber kTermSymbol) = some t) ↔ P ∈ wordsCatCarCart)) ∧
        ∀ t, IsTermNode v.bor_ t → ∀ k, child v.bor_ t k = none :=
  ⟨by decide, c10_structural_invariant wordsCatCarCart (by decide)⟩

/-- On an index with at least one word, a string over the alphabet is either a prefix
of an inserted word or a non-empty string that is not. -/
theorem found_or_missing {ws : List (List Char)} (hne : ws ≠ []) (P : List Char) :
    (∃ w ∈ ws, P <+: w) ∨ (P ≠ [] ∧ ¬ ∃ w ∈ ws, P <+: w) := by
  by_cases h : ∃ w ∈ ws, P <+: w
  · exact Or.inl h
  · refine Or.inr ⟨?_, h⟩
    rintro rfl
    obtain ⟨w, ws', rfl⟩ := List.exists_cons_of_ne_nil hne
    exact h ⟨w, List.mem_cons_self _ _, List.nil_prefix⟩

/-- Claim C17 (idempotence): on an index built from at least one word over `'a'..'z'`,
for every string `P` over `'a'..'z'`, the string returned by `PredictWord(P)` is returned
unchanged by a second `PredictWord` applied to it. -/
theorem c17_prediction_idempotent (ws : List (List Char)) (P : List Char) (hne : ws ≠ [])
    (hws : ∀ w ∈ ws, Lower w) (hP : Lower P) :
    ∃ v, build ws = .ok v ∧ ∀ fuel, v.bor_.length ≤ fuel →
      ∃ W v1 v2, PredictWord fuel v P = .ok (W, v1) ∧ PredictWord fuel v1 W = .ok (W, v2) := by
  obtain ⟨v, hv, hinv, hsem, _, _⟩ := build_inv ws hws
  refine ⟨v, hv, fun fuel hfuel => ?_⟩
  rcases found_or_missing hne P with hex | ⟨hPne, hno⟩
  · obtain ⟨W, c, hW, _, hpred⟩ := PredictWord_isPrediction hinv hsem hws hP hex hfuel
    have hWl : Lower W := hws W hW.1
    obtain ⟨W2, c2, hW2, _, hpred2⟩ :=
      PredictWord_isPrediction (v := { v with prev_node_ := some c, prev_prefix_ := P })
        hinv hsem hws hWl ⟨W, hW.1, List.prefix_refl _⟩ hfuel
    have e : W2 = W := hW2.unique hws (hW.mid hW.2.1 (List.prefix_refl _))
    subst e
    exact ⟨W2, _, _, hpred, hpred2⟩
  · have h1 := (PredictWord_missing hinv hsem hws hP hPne hno fuel).2
    have h2 := (PredictWord_missing
      (v := { v with prev_node_ := none, prev_prefix_ := P }) hinv hsem hws hP hPne hno fuel).2
    exact ⟨P, _, _, h1, h2⟩

/-- Claim C17 at the prefix "c" after "cat", "car" and "cart". -/
theorem c17_prediction_idempotent_witness :
    wordsCatCarCart ≠ [] ∧ (∀ w ∈ wordsCatCarCart, Lower w) ∧ Lower "c".toList ∧
      ∃ v, build wordsCatCarCart = .ok v ∧ ∀ fuel, v.bor_.length ≤ fuel →
        ∃ W v1 v2, PredictWord fuel v "c".toList = .ok (W, v1) ∧
          PredictWord fuel v1 W = .ok (W, v2) :=
  ⟨by decide, by decide, by decide,
    c17_prediction_idempotent wordsCatCarCart "c".toList (by decide) (by decide) (by decide)⟩

/-- Claim C18 (insertion order does not matter): two sequences of insertions of words
over `'a'..'z'` that are permutations of each other, with at least one word, give
indexes on which `PredictWord(P)` returns the same string, for every string `P` over
`'a'..'z'`. -/
theorem c18_insertion_order_irrelevant (ws ws' : List (List Char)) (P : List Char)
    (hperm : ws.Perm ws') (hne : ws ≠ []) (hws : ∀ w ∈ ws, Lower w) (hP : Lower P) :
    ∃ v v', build ws = .ok v ∧ build ws' = .ok v' ∧
      ∀ fuel fuel', v.bor_.length ≤ fuel → v'.bor_.length ≤ fuel' →
        ∃ W u u', PredictWord fuel v P = .ok (W, u) ∧ PredictWord fuel' v' P = .ok (W, u') := by
  have hws' : ∀ w ∈ ws', Lower w := fun w hw => hws w (hperm.mem_iff.2 hw)
  obtain ⟨v, hv, hinv, hsem, _, _⟩ := build_inv ws hws
  obtain ⟨v', hv', hinv', hsem', _, _⟩ := build_inv ws' hws'
  refine ⟨v, v', hv, hv', fun fuel fuel' hfuel hfuel' => ?_⟩
  rcases found_or_missing hne P with hex | ⟨hPne, hno⟩
  · have hex' : ∃ w ∈ ws', P <+: w := by
      obtain ⟨w, hw, hp⟩ := hex
      exact ⟨w, hperm.mem_iff.1 hw, hp⟩
    obtain ⟨W, c, hW, _, hpred⟩ := PredictWord_isPrediction hinv hsem hws hP hex hfuel
    obtain ⟨W', c', hW', _, hpred'⟩ :=
      PredictWord_isPrediction hinv' hsem' hws' hP hex' hfuel'
    have e : W' = W := hW'.unique hws' (hW.perm hperm)
    subst e
    exact ⟨W', _, _, hpred, hpred'⟩
  · have hno' : ¬ ∃ w ∈ ws', P <+: w := by
      rintro ⟨w, hw, hp⟩
      exact hno ⟨w, hperm.mem_iff.2 hw, hp⟩
    exact ⟨P, _, _, (PredictWord_missing hinv hsem hws hP hPne hno fuel).2,
      (PredictWord_missing hinv' hsem' hws' hP hPne hno' fuel').2⟩

/-- Claim C18 for "ab", "ac" inserted in two different orders, at the prefix "a". -/
theorem c18_insertion_order_irrelevant_witness :
    (["ab".toList, "ac".toList, "ac".toList, "ab".toList]).Perm
        ["ac".toList, "ab".toList, "ab".toList, "ac".toList] ∧
      ["ab".toList, "ac".toList, "ac".toList, "ab".toList] ≠ [] ∧
      (∀ w ∈ ["ab".toList, "ac".toList, "ac".toList, "ab".toList], Lower w) ∧
      Lower "a".toList ∧
      ∃ v v', build ["ab".toList, "ac".toList, "ac".toList, "ab".toList] = .ok v ∧
        build ["ac".toList, "ab".toList, "ab".toList, "ac".toList] = .ok v' ∧
        ∀ fuel fuel', v.bor_.length ≤ fuel → v'.bor_.length ≤ fuel' →
          ∃ W u u', PredictWord fuel v "a".toList = .ok (W, u) ∧
            PredictWord fuel' v' "a".toList = .ok (W, u') :=
  ⟨by decide, by decide, by decide, by decide,
    c18_insertion_order_irrelevant _ _ "a".toList (by decide) (by decide) (by decide)
      (by decide)⟩

theorem lexLe_head_le (p : List Nat) {a b : Nat} {x y : List Nat}
    (h : lexLe (p ++ a :: x) (p ++ b :: y) = true) : a ≤ b := by
  rw [lexLe_append_cancel] at h
  simp only [lexLe, Bool.or_eq_true, Bool.and_eq_true, decide_eq_true_eq] at h
  omega

theorem SymbolNumber_inj {c d : Char} (hc : inAlphabet c) (hd : inAlphabet d)
    (h : SymbolNumber c = SymbolNumber d) : c = d := by
  rw [← SymbolFromNumber_SymbolNumber hc, ← SymbolFromNumber_SymbolNumber hd, h]

theorem Lower.snoc {Q : List Char} (hQ : Lower Q) {c : Char} (hc : inAlphabet c) :
    Lower (Q ++ [c]) := by
  intro x hx
  rcases List.mem_append.1 hx with h | h
  · exact hQ x h
  · simp only [List.mem_singleton] at h
    subst h
    exact hc

/-- A letter child that carries the greatest count below `Q` is witnessed by an inserted
word through it. -/
theorem tie_word {ws : List (List Char)} (hws : ∀ w ∈ ws, Lower w) {Q : List Char}
    (hQ : Lower Q) {c : Char} (hc : inAlphabet c) (hpos : 0 < maxCount ws Q)
    (htie : maxCount ws (Q ++ [c]) = maxCount ws Q) :
    ∃ w ∈ ws, Q ++ [c] <+: w ∧ ws.count w = maxCount ws Q ∧
      ∃ r, tcode w = code Q ++ SymbolNumber c :: r := by
  have hex : ∃ w ∈ ws, Q ++ [c] <+: w := by
    rw [← htie] at hpos
    unfold maxCount at hpos
    obtain ⟨w, hw, hf⟩ := (maxCountBy_pos ws _).1 hpos
    exact ⟨w, hw, by simpa using hf⟩
  obtain ⟨w, hw, hp, hcw⟩ := maxCount_attained hex
  refine ⟨w, hw, hp, by rw [hcw, htie], ?_⟩
  have := (code_prefix_tcode_iff (hQ.snoc hc) (hws w hw)).2 hp
  obtain ⟨r, hr⟩ := this
  refine ⟨r, ?_⟩
  rw [← hr]
  simp [code]

/-- Claim C13 fails: after "car" once and "cart" once the node of "car" has its own
word-end count equal to its `max_n`, yet the completion does not stop there: the letter
child `'t'` has the same `max_n` and comes first in the scan, so `PredictWord("car")`
and `PredictWord("c")` return "cart". -/
theorem c13_letter_before_terminator_counterexample :
    (["car".toList, "cart".toList]).count "car".toList
        = maxCount ["car".toList, "cart".toList] "car".toList ∧
      predictOn ["car".toList, "cart".toList] 9 "car".toList = .ok "cart".toList ∧
      predictOn ["car".toList, "cart".toList] 9 "c".toList = .ok "cart".toList := by
  decide

/-- Claim C13, amended: on an index built from words over `'a'..'z'`, at the node of an
inserted word `Q` whose own number of insertions equals the `max_n` of the node, the
completion stops and returns `Q` exactly when no letter child carries the same `max_n`;
when some letter child does, the inner scan selects the lowest-indexed such letter `c`,
the loop descends into that child and the returned string extends `Q ++ [c]`.  The same
string is returned when the loop arrives at the node of `Q` from a shorter prefix `P`. -/
theorem c13_terminator_only_without_letter_tie (ws : List (List Char)) (Q : List Char)
    (hws : ∀ w ∈ ws, Lower w) (hQ : Q ∈ ws) (hown : ws.count Q = maxCount ws Q) :
    ∃ v, build ws = .ok v ∧ ∀ fuel, v.bor_.length ≤ fuel →
      ∃ W v', PredictWord fuel v Q = .ok (W, v') ∧
        (W = Q ↔ ∀ c, inAlphabet c → maxCount ws (Q ++ [c]) < maxCount ws Q) ∧
        (∀ P WP v'', P <+: Q → PredictWord fuel v P = .ok (WP, v'') → Q <+: WP → WP = W) ∧
        ∀ c, inAlphabet c → maxCount ws (Q ++ [c]) = maxCount ws Q →
          (∀ c', inAlphabet c' → SymbolNumber c' < SymbolNumber c →
            maxCount ws (Q ++ [c']) < maxCount ws Q) →
          Q ++ [c] <+: W ∧
            ∃ cur n, FindNodeInBor v Q (some 0) = .ok (some cur) ∧ v.bor_[cur]? = some n ∧
              scan v.bor_ n kAlphabetSize 0 = .ok (SymbolNumber c) := by
  obtain ⟨v, hv, hinv, hsem, _, _⟩ := build_inv ws hws
  refine ⟨v, hv, fun fuel hfuel => ?_⟩
  have hQl : Lower Q := hws Q hQ
  have hex : ∃ w ∈ ws, Q <+: w := ⟨Q, hQ, List.prefix_refl _⟩
  have hMpos : 0 < maxCount ws Q := by
    rw [← hown]
    exact List.count_pos_iff.2 hQ
  obtain ⟨W, cur, hW, hcur, hpred⟩ := PredictWord_isPrediction hinv hsem hws hQl hex hfuel
  have hWl : Lower W := hws W hW.1
  -- the first symbol of a proper extension is a letter child that ties
  have hfirst : ∀ d S, W = Q ++ d :: S →
      inAlphabet d ∧ maxCount ws (Q ++ [d]) = maxCount ws Q := by
    intro d S hS
    have hd : inAlphabet d := hWl d (by rw [hS]; simp)
    refine ⟨hd, le_antisymm (maxCount_anti ws (List.prefix_append _ _)) ?_⟩
    rw [← hW.2.2.1]
    exact count_le_maxCount hW.1 ⟨S, by rw [hS]; simp⟩
  -- the path of the result is below the path of every word through a tying letter
  have hbelow : ∀ c, inAlphabet c → maxCount ws (Q ++ [c]) = maxCount ws Q →
      ∃ r, lexLe (tcode W) (code Q ++ SymbolNumber c :: r) = true := by
    intro c hc htie
    obtain ⟨w', hw', hp', hc', r, hr⟩ := tie_word hws hQl hc hMpos htie
    refine ⟨r, ?_⟩
    rw [← hr]
    exact hW.2.2.2 w' hw' ((List.prefix_append _ _).trans hp') hc'
  refine ⟨W, _, hpred, ?_, ?_, ?_⟩
  · constructor
    · intro e c hc
      refine lt_of_le_of_ne (maxCount_anti ws (List.prefix_append _ _)) ?_
      intro heq
      obtain ⟨r, hr⟩ := hbelow c hc heq
      have hk := (SymbolNumber_lower hc).2
      rw [e, tcode] at hr
      have := lexLe_head_le (code Q) hr
      omega
    · intro hno
      obtain ⟨S, hS⟩ := hW.2.1
      cases S with
      | nil => simpa using hS.symm
      | cons d S =>
        exfalso
        obtain ⟨hd, htie⟩ := hfirst d S hS.symm
        have := hno d hd
        omega
  · intro P WP v'' hPQ hpredP hQWP
    have hPl : Lower P := fun x hx => hQl x (hPQ.subset hx)
    have hexP : ∃ w ∈ ws, P <+: w := ⟨Q, hQ, hPQ⟩
    obtain ⟨WP', cP, hWP, _, hpredP'⟩ :=
      PredictWord_isPrediction hinv hsem hws hPl hexP hfuel
    rw [hpredP] at hpredP'
    have e : WP = WP' := (Prod.mk.inj (Res.ok.inj hpredP')).1
    subst e
    exact (hWP.mid hPQ hQWP).unique hws hW
  · intro c hc htie hlow
    have hk := (SymbolNumber_lower hc).2
    constructor
    · obtain ⟨r, hr⟩ := hbelow c hc htie
      obtain ⟨S, hS⟩ := hW.2.1
      cases S with
      | nil =>
        exfalso
        rw [List.append_nil] at hS
        rw [← hS, tcode] at hr
        have := lexLe_head_le (code Q) hr
        omega
      | cons d S =>
        obtain ⟨hd, hdtie⟩ := hfirst d S hS.symm
        have hle : SymbolNumber d ≤ SymbolNumber c := by
          have e : tcode W = code Q ++ SymbolNumber d :: tcode S := by
            rw [← hS, tcode_append]
            simp [tcode, code]
          rw [e] at hr
          exact lexLe_head_le (code Q) hr
        have hge : ¬ SymbolNumber d < SymbolNumber c := by
          intro hlt
          have := hlow d hd hlt
          omega
        have e : d = c := SymbolNumber_inj hd hc (by omega)
        subst e
        exact ⟨S, by rw [← hS]; simp⟩
    · have hbest : best ws (code Q) = maxCount ws Q := (maxCount_eq_best hws hQl).symm
      obtain ⟨n, hn⟩ :=
        exists_getElem?_of_lt (hinv.wf.walk_lt_length hinv.wf.root hcur)
      refine ⟨cur, n, by rw [FindNodeInBor_eq hinv.wf hQl hinv.wf.root, hcur], hn, ?_⟩
      obtain ⟨w', hw', _, hc', r, hr⟩ := tie_word hws hQl hc hMpos htie
      have hgc : Good v.bor_ cur (SymbolNumber c) :=
        good_of_word hsem hcur hw' ⟨r, by rw [hr]; simp⟩ (by rw [hc', hbest])
      rcases scan_spec hinv.wf hn kAlphabetSize 0 (by simp) with
        ⟨k, hscan, _, _, hg, hmin⟩ | ⟨_, hnone⟩
      swap
      · exact absurd hgc (hnone _ (Nat.zero_le _) (by omega))
      have hkle : k ≤ SymbolNumber c := by
        by_contra hlt
        exact hmin _ (Nat.zero_le _) (by omega) hgc
      obtain ⟨hbk, _⟩ := word_of_good hsem hcur hg (by rw [hbest]; exact hMpos)
      obtain ⟨hin, hnum, _⟩ := SymbolFromNumber_lower k (by omega)
      have hdtie : maxCount ws (Q ++ [SymbolFromNumber k]) = maxCount ws Q := by
        rw [maxCount_eq_best hws (hQl.snoc hin), code_append, ← hbest, ← hbk]
        simp [code, hnum]
      have hge : ¬ k < SymbolNumber c := by
        intro hlt
        have := hlow _ hin (by rw [hnum]; exact hlt)
        omega
      have e : k = SymbolNumber c := by omega
      rw [hscan, e]

/-- Claim C13, amended, at the word "a" after "a", "ab" and "ac" once each: the letter
children `'b'` and `'c'` both tie with the word-end count of "a". -/
theorem c13_terminator_only_without_letter_tie_witness :
    (∀ w ∈ wordsAAbAc, Lower w) ∧ "a".toList ∈ wordsAAbAc ∧
      wordsAAbAc.count "a".toList = maxCount wordsAAbAc "a".toList ∧
      ∃ v, build wordsAAbAc = .ok v ∧ ∀ fuel, v.bor_.length ≤ fuel →
        ∃ W v', PredictWord fuel v "a".toList = .ok (W, v') ∧
          (W = "a".toList ↔
            ∀ c, inAlphabet c →
              maxCount wordsAAbAc ("a".toList ++ [c]) < maxCount wordsAAbAc "a".toList) ∧
          (∀ P WP v'', P <+: "a".toList → PredictWord fuel v P = .ok (WP, v'') →
            "a".toList <+: WP → WP = W) ∧
          ∀ c, inAlphabet c →
            maxCount wordsAAbAc ("a".toList ++ [c]) = maxCount wordsAAbAc "a".toList →
            (∀ c', inAlphabet c' → SymbolNumber c' < SymbolNumber c →
              maxCount wordsAAbAc ("a".toList ++ [c']) < maxCount wordsAAbAc "a".toList) →
            "a".toList ++ [c] <+: W ∧
              ∃ cur n, FindNodeInBor v "a".toList (some 0) = .ok (some cur) ∧
                v.bor_[cur]? = some n ∧
                scan v.bor_ n kAlphabetSize 0 = .ok (SymbolNumber c) :=
  ⟨by decide, by decide, by decide,
    c13_terminator_only_without_letter_tie wordsAAbAc "a".toList (by decide) (by decide)
      (by decide)⟩

/-- The tie between a word end and letter children, evaluated: after "a", "ab" and "ac"
once each, `PredictWord("a")` returns "ab". -/
theorem predict_tie_is_ab : predictOn wordsAAbAc 9 "a".toList = .ok "ab".toList := by
  decide

/-- Further insertions keep the invariants, the cursor and the existing links. -/
theorem addWords_inv (ws2 : List (List Char)) :
    ∀ {v : Vocabulary} {ws : List (List Char)}, Inv v.bor_ → Sem v.bor_ ws →
      (∀ w ∈ ws, Lower w) → (∀ w ∈ ws2, Lower w) →
      ∃ v2, addWords v ws2 = .ok v2 ∧ Inv v2.bor_ ∧ Sem v2.bor_ (ws ++ ws2) ∧
        v2.prev_prefix_ = v.prev_prefix_ ∧ v2.prev_node_ = v.prev_node_ ∧
        (∀ i k c, child v.bor_ i k = some c → child v2.bor_ i k = some c) := by
  induction ws2 with
  | nil =>
    intro v ws hinv hsem _ _
    exact ⟨v, rfl, hinv, by simpa using hsem, rfl, rfl, fun _ _ _ h => h⟩
  | cons w ws2 ih =>
    intro v ws hinv hsem hws hws2
    have hw : Lower w := hws2 w (List.mem_cons_self _ _)
    obtain ⟨b', t, hadd, hinv', _, _, hpres, _⟩ := AddWord_struct hinv w hw.symbol_lt
    have hsem' := AddWord_sem hinv hsem hws hw hadd
    have hws' : ∀ x ∈ ws ++ [w], Lower x := by
      intro x hx
      rcases List.mem_append.1 hx with h | h
      · exact hws x h
      · simp only [List.mem_singleton] at h
        subst h
        exact hw
    obtain ⟨v2, hv2, hinv2, hsem2, hp1, hp2, hpres2⟩ :=
      ih (v := { v with bor_ := b' }) hinv' hsem' hws'
        (fun x hx => hws2 x (List.mem_cons_of_mem _ hx))
    refine ⟨v2, ?_, hinv2, by simpa using hsem2, hp1, hp2,
      fun i k c h => hpres2 i k c (hpres i k c h)⟩
    simp only [addWords, hadd]
    exact hv2

/-- Claim C19 (the cursor survives insertions): `AddWord` changes neither `prev_node_`
nor `prev_prefix_`; and when `PredictWord(P)` has found `P` on an index built from words
over `'a'..'z'`, then after any further insertions of words over `'a'..'z'` the call
`PredictPrevWordWithNewSymbols(S)` returns the string that `PredictWord(P ++ S)` returns
on the updated index, for every `S` over `'a'..'z'` such that `P ++ S` is a prefix of a
word inserted so far. -/
theorem c19_cursor_survives_insertions (ws1 ws2 : List (List Char)) (P S : List Char)
    (hws1 : ∀ w ∈ ws1, Lower w) (hws2 : ∀ w ∈ ws2, Lower w) (hP : Lower P) (hS : Lower S)
    (hfound : ∃ w ∈ ws1, P <+: w) (hex : ∃ w ∈ ws1 ++ ws2, P ++ S <+: w) :
    (∀ (u u' : Vocabulary) (w : List Char), AddWord u w = .ok u' →
        u'.prev_node_ = u.prev_node_ ∧ u'.prev_prefix_ = u.prev_prefix_) ∧
      ∃ v, build ws1 = .ok v ∧ ∀ fuel, v.bor_.length ≤ fuel →
        ∃ r1 v1 v2, PredictWord fuel v P = .ok (r1, v1) ∧ addWords v1 ws2 = .ok v2 ∧
          v2.prev_node_ = v1.prev_node_ ∧ v2.prev_prefix_ = v1.prev_prefix_ ∧
          ∀ fuel', v2.bor_.length ≤ fuel' →
            ∃ r u u', PredictPrevWordWithNewSymbols fuel' v2 S = .ok (r, u) ∧
              PredictWord fuel' v2 (P ++ S) = .ok (r, u') := by
  refine ⟨fun u u' w h => ⟨(AddWord_prev h).2, (AddWord_prev h).1⟩, ?_⟩
  obtain ⟨v, hv, hinv, hsem, _, _⟩ := build_inv ws1 hws1
  refine ⟨v, hv, fun fuel hfuel => ?_⟩
  obtain ⟨S1, c, hc, _, hpred1, _⟩ := PredictWord_found hinv hsem hws1 hP hfound hfuel
  obtain ⟨v2, hv2, hinv2, hsem2, hp1, hp2, hpres⟩ :=
    addWords_inv ws2 (v := { v with prev_node_ := some c, prev_prefix_ := P }) hinv hsem
      hws1 hws2
  refine ⟨_, _, v2, hpred1, hv2, hp2, hp1, fun fuel' hfuel' => ?_⟩
  have hws : ∀ w ∈ ws1 ++ ws2, Lower w := by
    intro w hw
    rcases List.mem_append.1 hw with h | h
    · exact hws1 w h
    · exact hws2 w h
  have hPS : Lower (P ++ S) := by
    intro x hx
    rcases List.mem_append.1 hx with h | h
    · exact hP x h
    · exact hS x h
  obtain ⟨S2, c2, hc2, hS2, hpred2, _⟩ := PredictWord_found hinv2 hsem2 hws hPS hex hfuel'
  have hcP : walk v2.bor_ 0 (code P) = some c := walk_mono hpres 0 _ c hc
  rw [code_append] at hc2
  obtain ⟨m, hm, hmc⟩ := walk_split hc2
  rw [hcP] at hm
  cases hm
  have hfind : FindNodeInBor v2 S (some c) = .ok (some c2) := by
    rw [FindNodeInBor_eq hinv2.wf hS (hinv2.wf.walk_lt_length hinv2.wf.root hcP)]
    exact congrArg _ hmc
  have hp2' : v2.prev_node_ = some c := hp2
  have hp1' : v2.prev_prefix_ = P := hp1
  refine ⟨(P ++ S) ++ S2, ⟨v2.bor_, S, some c2⟩, _, ?_, hpred2⟩
  simp only [PredictPrevWordWithNewSymbols, hp2', hp1']
  rw [PredictWordAt_found hfind hS2]
  simp

/-- Claim C19: the prefix "c" is predicted after "cat" and "car"; then "cart" and "cow"
are inserted and the prediction is continued by "o". -/
theorem c19_cursor_survives_insertions_witness :
    (∀ w ∈ ["cat".toList, "car".toList], Lower w) ∧
      (∀ w ∈ ["cart".toList, "cow".toList], Lower w) ∧ Lower "c".toList ∧ Lower "o".toList ∧
      (∃ w ∈ ["cat".toList, "car".toList], "c".toList <+: w) ∧
      (∃ w ∈ ["cat".toList, "car".toList] ++ ["cart".toList, "cow".toList],
        "c".toList ++ "o".toList <+: w) ∧
      ((∀ (u u' : Vocabulary) (w : List Char), AddWord u w = .ok u' →
          u'.prev_node_ = u.prev_node_ ∧ u'.prev_prefix_ = u.prev_prefix_) ∧
        ∃ v, build ["cat".toList, "car".toList] = .ok v ∧ ∀ fuel, v.bor_.length ≤ fuel →
          ∃ r1 v1 v2, PredictWord fuel v "c".toList = .ok (r1, v1) ∧
            addWords v1 ["cart".toList, "cow".toList] = .ok v2 ∧
            v2.prev_node_ = v1.prev_node_ ∧ v2.prev_prefix_ = v1.prev_prefix_ ∧
            ∀ fuel', v2.bor_.length ≤ fuel' →
              ∃ r u u', PredictPrevWordWithNewSymbols fuel' v2 "o".toList = .ok (r, u) ∧
                PredictWord fuel' v2 ("c".toList ++ "o".toList) = .ok (r, u')) :=
  ⟨by decide, by decide, by decide, by decide, by decide, by decide,
    c19_cursor_survives_insertions _ _ "c".toList "o".toList (by decide) (by decide)
      (by decide) (by decide) (by decide) (by decide)⟩

theorem missing_eq_missingCount (b : List Node) (ks : List Nat) :
    ∀ cur, missing b cur ks = missingCount b cur ks := by
  induction ks with
  | nil => intro cur; simp [missing, missingCount]
  | cons k ks ih =>
    intro cur
    unfold missingCount
    rw [List.length_cons, List.range_succ_eq_map, List.countP_cons, List.countP_map]
    simp only [missing]
    cases hc : child b cur k with
    | none =>
      have : ∀ m, (walk b cur ((k :: ks).take (m + 1))).isNone = true := by
        intro m
        simp [walk, hc]
      simp only [this, Function.comp_def]
      simp
    | some c =>
      have h0 : (walk b cur ((k :: ks).take (0 + 1))).isNone = false := by
        simp [walk, hc]
      have hs : ∀ m, (walk b cur ((k :: ks).take (Nat.succ m + 1))).isNone
          = (walk b c (ks.take (m + 1))).isNone := by
        intro m
        simp [walk, hc]
      simp only [h0, Function.comp_def, hs]
      rw [ih c]
      simp [missingCount]

theorem missing_eq_zero_of_walk {b : List Node} {ks : List Nat} :
    ∀ {cur t : Nat}, walk b cur ks = some t → missing b cur ks = 0 := by
  induction ks with
  | nil => intro cur t _; rfl
  | cons k ks ih =>
    intro cur t h
    simp only [walk] at h
    cases hc : child b cur k with
    | none => simp [hc] at h
    | some c =>
      rw [hc] at h
      simp only [missing, hc]
      exact ih h

/-- Claim C14 (insertion only grows the structure): on an index built from words over
`'a'..'z'`, `AddWord(w)` for a word `w` over `'a'..'z'` keeps every child link and
every path with the node it leads to, adds exactly one node per transition that is
missing on the path of `w` and its terminator, hence at most `|w| + 1` nodes, and adds
no node when `w` was already inserted. -/
theorem c14_insertion_only_grows (ws : List (List Char)) (w : List Char)
    (hws : ∀ x ∈ ws, Lower x) (hw : Lower w) :
    ∃ v v', build ws = .ok v ∧ AddWord v w = .ok v' ∧
      (∀ i k c, child v.bor_ i k = some c → child v'.bor_ i k = some c) ∧
      (∀ p i, walk v.bor_ 0 p = some i → walk v'.bor_ 0 p = some i) ∧
      v'.bor_.length = v.bor_.length + missingCount v.bor_ 0 (tcode w) ∧
      v'.bor_.length ≤ v.bor_.length + (w.length + 1) ∧
      (w ∈ ws → v'.bor_.length = v.bor_.length) := by
  obtain ⟨v, hv, hinv, hsem, _, _⟩ := build_inv ws hws
  obtain ⟨b', t, hadd, _, hlen, _, hpres, _⟩ := AddWord_struct hinv w hw.symbol_lt
  refine ⟨v, { v with bor_ := b' }, hv, hadd, hpres, fun p i h => walk_mono hpres 0 p i h,
    ?_, ?_, ?_⟩
  · rw [← missing_eq_missingCount]
    exact hlen
  · have h1 : missingCount v.bor_ 0 (tcode w) ≤ (List.range (tcode w).length).length :=
      List.countP_le_length _
    have h2 : (tcode w).length = w.length + 1 := by simp [tcode, code]
    rw [List.length_range, h2] at h1
    rw [missing_eq_missingCount] at hlen
    simp only
    omega
  · intro hmem
    have hpos : 0 < best ws (tcode w) := by
      rw [best_tcode hws hw]
      exact List.count_pos_iff.2 hmem
    obtain ⟨t', ht'⟩ := hsem.walk_of_pos hpos
    rw [missing_eq_zero_of_walk ht'] at hlen
    simpa using hlen

/-- Claim C14 for the word "care" after "cat" three times, "car" five times and "cart"
once. -/
theorem c14_insertion_only_grows_witness :
    (∀ x ∈ wordsCatCarCart, Lower x) ∧ Lower "care".toList ∧
      ∃ v v', build wordsCatCarCart = .ok v ∧ AddWord v "care".toList = .ok v' ∧
        (∀ i k c, child v.bor_ i k = some c → child v'.bor_ i k = some c) ∧
        (∀ p i, walk v.bor_ 0 p = some i → walk v'.bor_ 0 p = some i) ∧
        v'.bor_.length = v.bor_.length + missingCount v.bor_ 0 (tcode "care".toList) ∧
        v'.bor_.length ≤ v.bor_.length + ("care".toList.length + 1) ∧
        ("care".toList ∈ wordsCatCarCart → v'.bor_.length = v.bor_.length) :=
  ⟨by decide, by decide,
    c14_insertion_only_grows wordsCatCarCart "care".toList (by decide) (by decide)⟩

/-- The inner scan at the node of a prefix of an inserted word stays inside the array. -/
theorem scan_ok {b : List Node} {ws : List (List Char)} (hinv : Inv b) (hsem : Sem b ws)
    {Q : List Char} {cur : Nat} (hQ : Lower Q) (hwalk : walk b 0 (code Q) = some cur)
    (hpos : 0 < best ws (code Q)) :
    ∃ n k, b[cur]? = some n ∧ scan b n kAlphabetSize 0 = .ok k ∧ k < kAlphabetSize ∧
      Good b cur k ∧
      (k < kAlphabetSize - 1 → ∃ c, n.children[k]? = some (some c) ∧ cur < c ∧
        Lower (Q ++ [SymbolFromNumber k]) ∧
        walk b 0 (code (Q ++ [SymbolFromNumber k])) = some c ∧
        0 < best ws (code (Q ++ [SymbolFromNumber k]))) := by
  have hcur := hinv.wf.walk_lt_length hinv.wf.root hwalk
  obtain ⟨n, hn⟩ := exists_getElem?_of_lt hcur
  obtain ⟨w0, hw0, hp0, hc0⟩ := best_attained hpos
  obtain ⟨k0, rest0, e0⟩ := next_symbol hQ hp0
  have hg0 : Good b cur k0 := good_of_word hsem hwalk hw0 ⟨rest0, by simp [e0]⟩ hc0
  have hk0 : k0 < kAlphabetSize := by
    obtain ⟨c, hc, _⟩ := hg0
    exact hinv.wf.child_slot hc
  rcases scan_spec hinv.wf hn kAlphabetSize 0 (by simp) with
    ⟨k, hscan, _, hk, hg, _⟩ | ⟨_, hnone⟩
  swap
  · exact absurd hg0 (hnone k0 (Nat.zero_le _) hk0)
  refine ⟨n, k, hn, hscan, hk, hg, fun hk26 => ?_⟩
  obtain ⟨hbest, _⟩ := word_of_good hsem hwalk hg hpos
  obtain ⟨hin, hnum, _⟩ := SymbolFromNumber_lower k hk26
  obtain ⟨c, hc, _⟩ := hg
  obtain ⟨n', hn', hslot⟩ := (child_some_iff b cur k c).1 hc
  rw [hn] at hn'
  cases hn'
  have hcode' : code (Q ++ [SymbolFromNumber k]) = code Q ++ [k] := by
    rw [code_append]
    simp [code, hnum]
  refine ⟨c, hslot, (hinv.wf.lt cur k c hc).1, ?_, ?_, ?_⟩
  · intro x hx
    rcases List.mem_append.1 hx with h | h
    · exact hQ x h
    · simp only [List.mem_singleton] at h
      subst h
      exact hin
  · rw [hcode']
    exact (walk_snoc b 0 _ k c).2 ⟨cur, hwalk, hc⟩
  · rw [hcode', hbest]
    exact hpos

/-- Every node visited by the completion loop is the node of a prefix of an inserted
word. -/
theorem visited_spec {b : List Node} {ws : List (List Char)} (hinv : Inv b)
    (hsem : Sem b ws) (fuel : Nat) :
    ∀ {cur : Nat} {P : List Char}, Lower P → walk b 0 (code P) = some cur →
      0 < best ws (code P) →
      ∀ x ∈ visited b fuel cur, ∃ Q, Lower Q ∧ walk b 0 (code Q) = some x ∧
        0 < best ws (code Q) := by
  induction fuel with
  | zero => intro cur P _ _ _ x hx; simp [visited] at hx
  | succ fuel ih =>
    intro cur P hP hwalk hpos x hx
    obtain ⟨n, k, hn, hscan, hk, _, hnext⟩ := scan_ok hinv hsem hP hwalk hpos
    simp only [visited, hn, hscan, List.mem_cons] at hx
    rcases hx with hx | hx
    · subst hx
      exact ⟨P, hP, hwalk, hpos⟩
    · by_cases hterm : SymbolFromNumber k = kTermSymbol
      · simp [hterm] at hx
      · rw [if_neg hterm] at hx
        have hk26 : k < kAlphabetSize - 1 := by
          by_contra h
          exact hterm ((SymbolFromNumber_eq_term k).2 (by omega))
        obtain ⟨c, hslot, _, hP', hwalk', hpos'⟩ := hnext hk26
        simp only [hslot] at hx
        exact ih hP' hwalk' hpos' x hx

theorem best_nil_pos {ws : List (List Char)} (hne : ws ≠ []) : 0 < best ws [] := by
  obtain ⟨w, ws', rfl⟩ := List.exists_cons_of_ne_nil hne
  unfold best
  rw [maxCountBy_pos]
  exact ⟨w, List.mem_cons_self _ _, by simp⟩

/-- Claim C15 (the child scan is well defined): on an index built from at least one word
over `'a'..'z'`, for every string `P` over `'a'..'z'` that is found, every node visited
by the completion loop of `PredictWord(P)` has a child in one of the `kAlphabetSize`
slots whose `max_n` equals the `max_n` of the node, and the inner scan at that node
stops at such a slot without leaving the array. -/
theorem c15_child_scan_well_defined (ws : List (List Char)) (P : List Char) (hne : ws ≠ [])
    (hws : ∀ w ∈ ws, Lower w) (hP : Lower P) :
    ∃ v, build ws = .ok v ∧ ∀ c, FindNodeInBor v P (some 0) = .ok (some c) →
      ∀ fuel, ∀ x ∈ visited v.bor_ fuel c,
        ∃ n k ch cn, v.bor_[x]? = some n ∧ scan v.bor_ n kAlphabetSize 0 = .ok k ∧
          k < kAlphabetSize ∧ n.children[k]? = some (some ch) ∧ v.bor_[ch]? = some cn ∧
          cn.max_n = n.max_n := by
  obtain ⟨v, hv, hinv, hsem, _, _⟩ := build_inv ws hws
  refine ⟨v, hv, fun c hfind fuel x hx => ?_⟩
  rw [FindNodeInBor_eq hinv.wf hP hinv.wf.root] at hfind
  have hwalk : walk v.bor_ 0 (code P) = some c := Res.ok.inj hfind
  have hpos : 0 < best ws (code P) := by
    by_cases h0 : P = []
    · subst h0
      exact best_nil_pos hne
    · refine hsem.pos_of_walk hinv ?_ hwalk
      cases P with
      | nil => exact absurd rfl h0
      | cons a P => simp [code]
  obtain ⟨Q, hQ, hwQ, hposQ⟩ := visited_spec hinv hsem fuel hP hwalk hpos x hx
  obtain ⟨n, k, hn, hscan, hk, ⟨ch, hch, hmx⟩, _⟩ := scan_ok hinv hsem hQ hwQ hposQ
  obtain ⟨n', hn', hslot⟩ := (child_some_iff v.bor_ x k ch).1 hch
  rw [hn] at hn'
  cases hn'
  obtain ⟨cn, hcn⟩ := exists_getElem?_of_lt (hinv.wf.lt x k ch hch).2
  refine ⟨n, k, ch, cn, hn, hscan, hk, hslot, hcn, ?_⟩
  rw [← mx_eq_of_getElem? hcn, ← mx_eq_of_getElem? hn, hmx]

/-- Claim C15 at the prefix "ca" after "cat" three times, "car" five times and "cart"
once. -/
theorem c15_child_scan_well_defined_witness :
    wordsCatCarCart ≠ [] ∧ (∀ w ∈ wordsCatCarCart, Lower w) ∧ Lower "ca".toList ∧
      ∃ v, build wordsCatCarCart = .ok v ∧
        ∀ c, FindNodeInBor v "ca".toList (some 0) = .ok (some c) →
          ∀ fuel, ∀ x ∈ visited v.bor_ fuel c,
            ∃ n k ch cn, v.bor_[x]? = some n ∧ scan v.bor_ n kAlphabetSize 0 = .ok k ∧
              k < kAlphabetSize ∧ n.children[k]? = some (some ch) ∧
              v.bor_[ch]? = some cn ∧ cn.max_n = n.max_n :=
  ⟨by decide, by decide, by decide,
    c15_child_scan_well_defined wordsCatCarCart "ca".toList (by decide) (by decide)
      (by decide)⟩

/-- With a null cursor node and an empty cursor prefix the incremental call is the plain
call. -/
theorem PredictPrev_uninitialized {v : Vocabulary} (h1 : v.prev_node_ = none)
    (h2 : v.prev_prefix_ = []) (fuel : Nat) (S : List Char) :
    PredictPrevWordWithNewSymbols fuel v S = PredictWord fuel v S := by
  have e : PredictWordAt fuel v S none = PredictWordAt fuel v S (some 0) := rfl
  simp only [PredictPrevWordWithNewSymbols, PredictWord, h1, h2, e]
  cases PredictWordAt fuel v S (some 0) with
  | ok x => simp
  | oob => rfl
  | timeout => rfl

/-- Claim C20 (incremental call with an uninitialised cursor): on an index built from at
least one word over `'a'..'z'` on which no prediction was made, so that `prev_node_` is
null and `prev_prefix_` is empty, `PredictPrevWordWithNewSymbols(S)` returns the same
string and leaves the same cursor as `PredictWord(S)`, for every `S` over `'a'..'z'`. -/
theorem c20_uninitialized_cursor (ws : List (List Char)) (S : List Char) (hne : ws ≠ [])
    (hws : ∀ w ∈ ws, Lower w) (hS : Lower S) :
    ∃ v, build ws = .ok v ∧ v.prev_node_ = none ∧ v.prev_prefix_ = [] ∧
      ∀ fuel, v.bor_.length ≤ fuel →
        ∃ r v', PredictWord fuel v S = .ok (r, v') ∧
          PredictPrevWordWithNewSymbols fuel v S = .ok (r, v') := by
  obtain ⟨v, hv, hinv, hsem, hp1, hp2⟩ := build_inv ws hws
  refine ⟨v, hv, hp2, hp1, fun fuel hfuel => ?_⟩
  rw [PredictPrev_uninitialized hp2 hp1]
  rcases found_or_missing hne S with hex | ⟨hSne, hno⟩
  · obtain ⟨S1, c, _, _, hpred, _⟩ := PredictWord_found hinv hsem hws hS hex hfuel
    exact ⟨_, _, hpred, hpred⟩
  · have h := (PredictWord_missing hinv hsem hws hS hSne hno fuel).2
    exact ⟨_, _, h, h⟩

/-- Claim C20 at the string "ca" after "cat" three times, "car" five times and "cart"
once. -/
theorem c20_uninitialized_cursor_witness :
    wordsCatCarCart ≠ [] ∧ (∀ w ∈ wordsCatCarCart, Lower w) ∧ Lower "ca".toList ∧
      ∃ v, build wordsCatCarCart = .ok v ∧ v.prev_node_ = none ∧ v.prev_prefix_ = [] ∧
        ∀ fuel, v.bor_.length ≤ fuel →
          ∃ r v', PredictWord fuel v "ca".toList = .ok (r, v') ∧
            PredictPrevWordWithNewSymbols fuel v "ca".toList = .ok (r, v') :=
  ⟨by decide, by decide, by decide,
    c20_uninitialized_cursor wordsCatCarCart "ca".toList (by decide) (by decide)
      (by decide)⟩

/-- Claim C11 is broken by the code: on a freshly constructed `Vocabulary` the root has
no child and `max_n = 0`, so the inner scan of `PredictWord("")` finds no child in the
slots `0..kAlphabetSize - 1` and reads past the end of the array of children; the call
does not return "". -/
theorem c11_empty_index_scan_leaves_array :
    build [] = .ok new ∧ FindNodeInBor new [] (some 0) = .ok (some 0) ∧
      new.bor_[0]? = some emptyNode ∧ scan new.bor_ emptyNode kAlphabetSize 0 = .oob ∧
      PredictWord 0 new [] = .timeout ∧ ∀ fuel, PredictWord (fuel + 1) new [] = .oob :=
  ⟨rfl, rfl, rfl, rfl, rfl, fun _ => rfl⟩

/-- Building an index from words whose characters index inside the array of children
succeeds and keeps the structural invariant. -/
theorem build_struct (ws : List (List Char)) (hws : ∀ w ∈ ws, InBounds w) :
    ∃ v, build ws = .ok v ∧ Inv v.bor_ := by
  induction ws using List.reverseRecOn with
  | nil => exact ⟨new, rfl, inv_new⟩
  | append_singleton ws w ih =>
    obtain ⟨v, hv, hinv⟩ := ih (fun x hx => hws x (List.mem_append_left _ hx))
    have hw : InBounds w := hws w (List.mem_append_right _ (List.mem_singleton_self _))
    obtain ⟨b', t, hadd, hinv', _⟩ := AddWord_struct hinv w hw
    refine ⟨{ v with bor_ := b' }, ?_, hinv'⟩
    unfold build at hv ⊢
    rw [addWords_append, hv]
    exact hadd

/-- Claim C12 fails: the word "a#b" contains the terminator symbol, yet `AddWord("a#b")`
on a fresh index signals nothing and changes the structure: four nodes are added to the
root, and the first `'#'` takes the terminator slot below "a", so that afterwards
`PredictWord("")` returns "a". -/
theorem c12_terminator_in_word_counterexample :
    ¬ Lower "a#b".toList ∧ new.bor_.length = 1 ∧
      (AddWord new "a#b".toList).bind (fun v => .ok v.bor_.length) = .ok 5 ∧
      predictOn ["a#b".toList] 5 [] = .ok "a".toList := by
  decide

/-- Claim C12, amended: `AddWord` has no invalid-input error.  On an index built from
words all of whose characters index inside the array of children (the letters
`'a'..'z'`, and also the terminator `'#'`), `AddWord(w)` for such a word `w` completes,
leaves the cursor unchanged and changes the structure: the path of the symbol numbers
of `w` followed by the terminator exists afterwards and the counter at its end is one
more than before. -/
theorem c12_no_input_validation (ws : List (List Char)) (w : List Char)
    (hws : ∀ x ∈ ws, InBounds x) (hw : InBounds w) :
    ∃ v v' t, build ws = .ok v ∧ AddWord v w = .ok v' ∧
      v'.prev_node_ = v.prev_node_ ∧ v'.prev_prefix_ = v.prev_prefix_ ∧
      FindNodeInBor v' (w ++ [kTermSymbol]) (some 0) = .ok (some t) ∧
      mx v'.bor_ t = mx v.bor_ t + 1 ∧ v'.bor_ ≠ v.bor_ := by
  obtain ⟨v, hv, hinv⟩ := build_struct ws hws
  obtain ⟨b', t, hadd, hinv', _, hwalk, _, _, _, hon, _⟩ := AddWord_struct hinv w hw
  have hmx : mx b' t = mx v.bor_ t + 1 := by
    rw [hon t ⟨tcode w, [], by simp, hwalk⟩]
    omega
  refine ⟨v, { v with bor_ := b' }, t, hv, hadd, rfl, rfl, ?_, hmx, ?_⟩
  · rw [FindNodeInBor_eq_walk (v := { v with bor_ := b' }) hinv'.wf ?_ hinv'.wf.root,
      code_append_term, hwalk]
    intro c hc
    rcases List.mem_append.1 hc with h | h
    · exact hw c h
    · simp only [List.mem_singleton] at h
      subst h
      exact SymbolNumber_term_lt
  · intro e
    simp only at e
    rw [e] at hmx
    omega

/-- Claim C12, amended, for the word "a#b" on an index that holds "cat". -/
theorem c12_no_input_validation_witness :
    (∀ x ∈ ["cat".toList], InBounds x) ∧ InBounds "a#b".toList ∧
      ∃ v v' t, build ["cat".toList] = .ok v ∧ AddWord v "a#b".toList = .ok v' ∧
        v'.prev_node_ = v.prev_node_ ∧ v'.prev_prefix_ = v.prev_prefix_ ∧
        FindNodeInBor v' ("a#b".toList ++ [kTermSymbol]) (some 0) = .ok (some t) ∧
        mx v'.bor_ t = mx v.bor_ t + 1 ∧ v'.bor_ ≠ v.bor_ :=
  ⟨by decide, by decide, c12_no_input_validation ["cat".toList] "a#b".toList (by decide)
    (by decide)⟩

end Vocabulary
